import Mathlib

/-!
Verification of the memory-hierarchy synthesis engine of the AutoSA/PPCG
CUDA code generator (src/cuda.c), against its natural-language specification.

The engine consumes an external integer-relation library (isl).  Following
the specification, which declares the relation algebra an external
collaborator, relations that the engine only combines through union,
intersection, emptiness, composition, injectivity and bijectivity tests are
shallowly embedded as finite sets of integer-tuple pairs, and the operations
the engine performs on them are defined pointwise (which is the contract of
the corresponding isl primitives).  The Bound Solver, which inspects the
syntactic constraint representation of a basic map, is embedded at the
constraint level; the results of the external calls it makes (simple hull,
affine hull, map composition, integer LP maximisation) are passed in as
function parameters, and the theorems that depend on their meaning carry
the corresponding contract as hypotheses.
-/

/-! ## Tiling primitives (src/cuda.c, tile and wrap)

`tile` constructs a basic map by adding, for every position handled by one
iteration of its constraint-building loops, one equality or inequality
constraint.  The predicates below state the satisfaction of exactly those
constraints: one conjunct per `isl_basic_map_add_constraint` call, with the
same coefficients.  Integer tuples are represented as functions from
coordinate positions to integers. -/

/-- Satisfaction of the constraint system built by `tile(dim, len, first,
tile_len, tile_size)`: the first conjunct is the copy loop (coefficient -1 on
input dimension `j`, +1 on output dimension `k`), the second the splitting
equality (-1 on input `first+i`, `tile_size[i]` on output `first+i`, +1 on
output `first+i+tile_len`), the last two the bounds on the remainder. -/
def tile (len first tile_len : ℕ) (ts : ℕ → ℤ) (x y : ℕ → ℤ) : Prop :=
  (∀ i, i < len - tile_len →
    y (if i < first then i else i + 2 * tile_len) =
      x (if i < first then i else i + tile_len)) ∧
  (∀ i, i < tile_len →
    x (first + i) = ts i * y (first + i) + y (first + i + tile_len)) ∧
  (∀ i, i < tile_len →
    0 ≤ y (first + i + tile_len) ∧ y (first + i + tile_len) ≤ ts i - 1)

/-- Satisfaction of the constraint system built by `wrap(dim, len, first,
wrap_len, wrap_size)` before the final projection: all `len` input
coordinates are copied (the wrapped ones in place, the trailing ones shifted
past the two auxiliary blocks), each wrapped coordinate is decomposed as
remainder plus `wrap_size[i]` times an auxiliary quotient, and the remainder
is bounded. -/
def wrapFull (len first wrap_len : ℕ) (ws : ℕ → ℤ) (x z : ℕ → ℤ) : Prop :=
  (∀ i, i < len →
    z (if i < first + wrap_len then i else i + 2 * wrap_len) = x i) ∧
  (∀ i, i < wrap_len →
    z (first + i) = z (first + wrap_len + i) + ws i * z (first + 2 * wrap_len + i)) ∧
  (∀ i, i < wrap_len →
    0 ≤ z (first + wrap_len + i) ∧ z (first + wrap_len + i) ≤ ws i - 1)

/-- The relation returned by `wrap`: the auxiliary quotient block at
positions `[first+2*wrap_len, first+3*wrap_len)` is projected out
(`isl_basic_map_project_out`), so the visible output `y` consists of the
remaining coordinates in order. -/
def wrap (len first wrap_len : ℕ) (ws : ℕ → ℤ) (x y : ℕ → ℤ) : Prop :=
  ∃ z : ℕ → ℤ, wrapFull len first wrap_len ws x z ∧
    (∀ k, k < first + 2 * wrap_len → y k = z k) ∧
    (∀ k, first + 2 * wrap_len ≤ k → k < len + wrap_len → y k = z (k + wrap_len))

/-- The output tuple that the specification ascribes to `tile`: coordinates
outside `[first, first+tile_len)` copied unchanged, each coordinate inside
split into quotient (at its own position) and remainder (appended after the
quotient block). -/
def tileSpec (first tile_len : ℕ) (ts : ℕ → ℤ) (x : ℕ → ℤ) (k : ℕ) : ℤ :=
  if k < first then x k
  else if k < first + tile_len then x k / ts (k - first)
  else if k < first + 2 * tile_len then x (k - tile_len) % ts (k - first - tile_len)
  else x (k - tile_len)

/-- The output tuple that the specification ascribes to `wrap`: original
coordinates kept (wrapped ones included), remainders appended after the
wrapped block. -/
def wrapSpec (first wrap_len : ℕ) (ws : ℕ → ℤ) (x : ℕ → ℤ) (k : ℕ) : ℤ :=
  if k < first + wrap_len then x k
  else if k < first + 2 * wrap_len then x (k - wrap_len) % ws (k - first - wrap_len)
  else x (k - wrap_len)

/-! ## Finite-relation model of the isl maps the grouping code combines

The reference-grouping and promotion passes treat access relations
opaquely: they only union them, intersect them, test emptiness,
compose them with a schedule, and test injectivity / bijectivity.
A relation is embedded as a finite set of (input tuple, output tuple)
pairs, and each isl primitive used by the code is defined pointwise. -/

/-- An integer tuple. -/
abbrev Tup := List ℤ

/-- A finite integer relation (a set of pairs of tuples): the model of an
`isl_map` or single-space `isl_union_map`. -/
abbrev IRel := Finset (Tup × Tup)

/-- `isl_union_map_apply_domain access sched`: the pairs `(m, x)` such that
some `d` is mapped to `m` by `sched` and to `x` by `access`. -/
def applyDomainRel (sched r : IRel) : IRel :=
  ((sched ×ˢ r).filter (fun q => q.1.1 = q.2.1)).image (fun q => (q.1.2, q.2.2))

/-- `isl_map_apply_range a b`: relational composition. -/
def applyRangeRel (a b : IRel) : IRel :=
  ((a ×ˢ b).filter (fun q => q.1.2 = q.2.1)).image (fun q => (q.1.1, q.2.2))

/-- `isl_union_map_is_injective`: no two distinct domain points share an
image point. -/
def isInjectiveRel (r : IRel) : Bool :=
  decide (∀ p ∈ r, ∀ q ∈ r, p.2 = q.2 → p.1 = q.1)

/-- Single-valuedness: no domain point has two distinct image points. -/
def isSingleValuedRel (r : IRel) : Bool :=
  decide (∀ p ∈ r, ∀ q ∈ r, p.1 = q.1 → p.2 = q.2)

/-- `isl_map_is_bijective`: single-valued and injective. -/
def isBijectiveRel (r : IRel) : Bool :=
  isSingleValuedRel r && isInjectiveRel r

/-! ## Constraint-level model of the basic maps seen by the Bound Solver

`compute_array_dim_size` and `check_stride` inspect the syntactic
constraints of a basic map whose output is a single array index
dimension.  A constraint carries coefficients for the parameters, the
input dimensions, the single output dimension, the existentially
quantified div variables, and a constant; isl's convention is
`lhs = 0` for an equality and `lhs >= 0` for an inequality. -/

/-- An affine expression in the parameters only (the `shift` extracted by
`extract_stride`). -/
structure AffP where
  cst : ℤ
  pC : List ℤ
deriving DecidableEq

/-- Dot product of a coefficient list with a point (missing entries count
as zero). -/
def dotl (a b : List ℤ) : ℤ := ((a.zip b).map fun q => q.1 * q.2).sum

def evalAffP (a : AffP) (p : List ℤ) : ℤ := a.cst + dotl a.pC p

/-- One isl constraint of a basic map with a single output dimension. -/
structure Constr where
  isEq : Bool
  pC : List ℤ
  inC : List ℤ
  outC : ℤ
  dC : List ℤ
  cst : ℤ
deriving DecidableEq

/-- A basic map with a single output dimension: div count and constraints. -/
structure BasicMap where
  nDiv : ℕ
  cs : List Constr
deriving DecidableEq

def constrLHS (c : Constr) (p x : List ℤ) (j : ℤ) (e : List ℤ) : ℤ :=
  dotl c.pC p + dotl c.inC x + c.outC * j + dotl c.dC e + c.cst

def satC (c : Constr) (p x : List ℤ) (j : ℤ) (e : List ℤ) : Prop :=
  if c.isEq then constrLHS c p x j e = 0 else 0 ≤ constrLHS c p x j e

/-- Integer points of a basic map: parameter values `p`, input tuple `x` and
output value `j` such that some assignment of the div variables satisfies
every constraint. -/
def satBM (bm : BasicMap) (p x : List ℤ) (j : ℤ) : Prop :=
  ∃ e : List ℤ, e.length = bm.nDiv ∧ ∀ c ∈ bm.cs, satC c p x j e

/-- Ceiling division: `cdiv a b` is the least integer at least `a / b`
(for `b > 0`); this is the `isl_aff_ceil` applied by
`compute_size_in_direction` to the lower bound `b(x)/m`. -/
def cdiv (a b : ℤ) : ℤ := -((-a) / b)

/-- The data of the lower-bound quasi-affine expression `ceil(b(p,x)/m)`
recorded in `bound->lb`: the positive coefficient `m` of the output
dimension and the remaining (negated) affine part of the constraint. -/
structure LBData where
  m : ℤ
  pC : List ℤ
  inC : List ℤ
  cst : ℤ
deriving DecidableEq

def lbOf (c : Constr) : LBData := ⟨c.outC, c.pC, c.inC, c.cst⟩

def evalLB (l : LBData) (p x : List ℤ) : ℤ :=
  cdiv (-(dotl l.pC p + dotl l.inC x + l.cst)) l.m

/-- `struct cuda_array_bound`: constant size, lower bound, and optional
stride/shift (present together; `stride = -1` with no shift when absent,
matching the sentinel used by `check_stride`). -/
structure CBound where
  size : ℤ
  lb : Option LBData
  stride : ℤ
  shift : Option AffP
deriving DecidableEq

/-- Whether a constraint involves any div variable
(`isl_constraint_involves_dims(c, isl_dim_div, 0, n_div)`). -/
def divInvolved (c : Constr) : Bool := c.dC.any fun a => decide (a ≠ 0)

/-- `compute_size_in_direction`: skip constraints involving divs; for a
lower-bound constraint (positive coefficient on the output dimension) ask
the LP oracle for the maximum of `i - ceil(b(x)/m)`; on success the
candidate size is that maximum plus one, kept if smaller than the current
size. -/
def compute_size_in_direction (lpMax : Constr → Option ℤ) (b : CBound)
    (c : Constr) : CBound :=
  if divInvolved c then b
  else if 0 < c.outC then
    match lpMax c with
    | some v =>
        if b.size < 0 ∨ v + 1 < b.size then
          { b with size := v + 1, lb := some (lbOf c) }
        else b
    | none => b
  else b

/-- Accumulator of `check_stride_constraint` (`bound->stride` and
`bound->shift`, initialised to `-1` / absent by `check_stride`). -/
structure StrideSt where
  stride : ℤ
  shift : Option AffP
deriving DecidableEq

/-- `isl_int_gcd` folded over the div coefficients, starting from 0. -/
def gcdList (l : List ℤ) : ℤ := (l.foldl (fun g a => Nat.gcd g a.natAbs) 0 : ℕ)

/-- `extract_stride`: record the constant and parameter coefficients of the
constraint (negated if the output coefficient was -1) as the shift. -/
def extract_stride (c : Constr) : AffP :=
  if c.outC < 0 then { cst := -c.cst, pC := c.pC.map Neg.neg }
  else { cst := c.cst, pC := c.pC }

/-- `check_stride_constraint`: for a constraint with at least one div
variable and output coefficient plus or minus one, the candidate stride is
the gcd of the div coefficients; it is recorded when nonzero and larger
than the stride found so far. -/
def check_stride_constraint (st : StrideSt) (c : Constr) : StrideSt :=
  if c.dC.length ≠ 0 ∧ (c.outC = 1 ∨ c.outC = -1) then
    let g := gcdList c.dC
    if g ≠ 0 ∧ st.stride < g then { stride := g, shift := some (extract_stride c) }
    else st
  else st

/-- `check_stride`: fold `check_stride_constraint` over the constraints of
the affine hull of the basic map (the affine hull itself is computed by the
external relation library, passed in as `affHull`); if a stride was found,
the map is composed with the re-index map `i -> (i+shift)/stride`, again by
the external library (`applyShiftMap`). -/
def check_stride (affHull : BasicMap → List Constr)
    (applyShiftMap : BasicMap → ℤ → AffP → BasicMap) (bm : BasicMap) :
    StrideSt × BasicMap :=
  let st := (affHull bm).foldl check_stride_constraint { stride := -1, shift := none }
  if st.stride < 0 then (st, bm)
  else
    match st.shift with
    | some a => (st, applyShiftMap bm st.stride a)
    | none => (st, bm)

/-- `compute_array_dim_size`: run stride detection, then fold
`compute_size_in_direction` over the constraints of the (possibly stride
rewritten) map, starting from size `-1`; succeed exactly when the final
size is nonnegative.  Failure is a value (`none`), never an abort. -/
def compute_array_dim_size (affHull : BasicMap → List Constr)
    (applyShiftMap : BasicMap → ℤ → AffP → BasicMap)
    (lpMax : BasicMap → Constr → Option ℤ) (bm : BasicMap) : Option CBound :=
  let sb := check_stride affHull applyShiftMap bm
  let b0 : CBound := { size := -1, lb := none, stride := sb.1.stride, shift := sb.1.shift }
  let b := sb.2.cs.foldl (compute_size_in_direction (lpMax sb.2)) b0
  if 0 ≤ b.size then some b else none

/-- The operations the Bound Solver obtains from the external relation
library: `hull` is `isl_map_simple_hull` of the access projected onto one
index dimension, `affHull` is `isl_basic_map_affine_hull`, `applyShiftMap`
is `isl_basic_map_apply_range` with the shift map built by `check_stride`,
and `lpMax` is `isl_basic_set_max`. -/
structure RelOracles where
  hull : IRel → BasicMap
  affHull : BasicMap → List Constr
  applyShiftMap : BasicMap → ℤ → AffP → BasicMap
  lpMax : BasicMap → Constr → Option ℤ

/-- Projection of an access relation onto array index dimension `i`
(`isl_map_project_out` of the other output dimensions). -/
def projDim (r : IRel) (i : ℕ) : IRel := r.image fun q => (q.1, [q.2.getD i 0])

/-- `can_tile_for_shared_memory`: for each array index dimension in turn,
project the access relation onto it, take its simple hull, and run
`compute_array_dim_size`; fail (returning `none`, with no partial bound
surviving) as soon as one dimension fails. -/
def can_tile_for_shared_memory (O : RelOracles) (n : ℕ) (access : IRel) :
    Option (List CBound) :=
  (List.range n).mapM fun i =>
    compute_array_dim_size O.affHull O.applyShiftMap O.lpMax (O.hull (projDim access i))

/-! ## Reference grouping (populate, conflict merge, shared tiles, extract) -/

/-- `cuda_stmt_access`: the access relation of one array reference and its
read/write flags. -/
structure ARef where
  access : IRel
  read : Bool
  write : Bool
deriving DecidableEq

/-- `cuda_array_ref_group` during construction: the original index of the
single reference it was created from (`refs` pointer), the accumulated
access relation, the write flag, the member count, and the two optional
bound lists. -/
structure RefGrp where
  refIdx : ℕ
  access : IRel
  write : Bool
  nRef : ℕ
  sharedBound : Option (List CBound)
  privateBound : Option (List CBound)
deriving DecidableEq

def emptyGrp : RefGrp := ⟨0, ∅, false, 0, none, none⟩

/-- `populate_array_references`: apply the kernel schedule to each
reference's access relation (the counter `i` is the index of the first
reference of the remaining list), drop the references whose scheduled
relation is empty, and create one singleton group per survivor. -/
def populate_array_references (sched : IRel) : ℕ → List ARef → List RefGrp
  | _, [] => []
  | i, r :: rs =>
    let m := applyDomainRel sched r.access
    if m = ∅ then populate_array_references sched (i + 1) rs
    else { refIdx := i, access := m, write := r.write, nRef := 0,
           sharedBound := none, privateBound := none } ::
         populate_array_references sched (i + 1) rs

/-- The group array as a function (indices beyond the populated range hold
an empty group, which the algorithm never consults). -/
def G0 (gs : List RefGrp) : ℕ → RefGrp := fun k => gs.getD k emptyGrp

/-- The merge step of `group_overlapping_writes`: group `j` absorbs the
access relation and reference count of group `l`, becomes a write group,
and group `l`'s access is cleared (`groups[l]->access = NULL`). -/
def gowMergeG (G : ℕ → RefGrp) (l j : ℕ) : ℕ → RefGrp :=
  Function.update
    (Function.update G j
      { G j with access := (G j).access ∪ (G l).access, write := true,
                 nRef := (G j).nRef + (G l).nRef })
    l { G l with access := ∅ }

/-- The inner scan of `group_overlapping_writes` over indices `j` in
descending order: skip non-leaders, skip pairs where neither group writes,
skip disjoint pairs, and otherwise merge the current group into `j`
(updating `leader[l] = j` and continuing from `l = j`).  The last component
counts merges (each decrements `n_group`). -/
def gowScan (G : ℕ → RefGrp) (L : ℕ → ℕ) (l cnt : ℕ) :
    List ℕ → ((ℕ → RefGrp) × (ℕ → ℕ) × ℕ × ℕ)
  | [] => (G, L, l, cnt)
  | j :: js =>
    if L j ≠ j then gowScan G L l cnt js
    else if (G l).write = false ∧ (G j).write = false then gowScan G L l cnt js
    else if (G l).access ∩ (G j).access = ∅ then gowScan G L l cnt js
    else gowScan (gowMergeG G l j) (Function.update L l j) j (cnt + 1) js

/-- The outer loop of `group_overlapping_writes`: for each `i` in ascending
order, set the fresh group's reference count to one, scan all earlier
indices, and record the final leader of `i`. -/
def gowOuter : (ℕ → RefGrp) → (ℕ → ℕ) → ℕ → List ℕ →
    ((ℕ → RefGrp) × (ℕ → ℕ) × ℕ)
  | G, L, cnt, [] => (G, L, cnt)
  | G, L, cnt, i :: is =>
      let G1 := Function.update G i { G i with nRef := 1 }
      let r := gowScan G1 L i cnt (List.range i).reverse
      gowOuter r.1 (Function.update r.2.1 i r.2.2.1) r.2.2.2 is

/-- `group_overlapping_writes`: run the scan over all `n` initial singleton
groups (leader array initialised so that every index is its own leader) and
return the groups, the leader array, and the number of remaining leaders. -/
def group_overlapping_writes (n : ℕ) (G : ℕ → RefGrp) :
    ((ℕ → RefGrp) × (ℕ → ℕ) × ℕ) :=
  let r := gowOuter G id 0 (List.range n)
  (r.1, r.2.1, n - r.2.2)

/-- `compute_group_shared_bound`: try the Bound Solver on the group's
accumulated access relation; store the bound list on success, leave the
group with no shared bound on failure. -/
def compute_group_shared_bound (O : RelOracles) (nIdx : ℕ) (g : RefGrp) :
    RefGrp :=
  match can_tile_for_shared_memory O nIdx g.access with
  | some bl => { g with sharedBound := some bl }
  | none => { g with sharedBound := none }

/-- The shared-tile attempt of `group_array_references`: run
`compute_group_shared_bound` on every leader. -/
def sharedPass (O : RelOracles) (nIdx n : ℕ) (G : ℕ → RefGrp) (L : ℕ → ℕ) :
    ℕ → RefGrp :=
  (List.range n).foldl
    (fun G2 i => if L i = i then
        Function.update G2 i (compute_group_shared_bound O nIdx (G2 i))
      else G2) G

/-- The merge step of `group_common_shared_memory_tile`: group `j` takes
the union access relation, the freshly computed shared bound, and the
combined reference count (the write flag is left unchanged). -/
def gcsmtMergeG (G : ℕ → RefGrp) (l j : ℕ) (sb : List CBound) : ℕ → RefGrp :=
  Function.update G j
    { G j with sharedBound := some sb,
               access := (G l).access ∪ (G j).access,
               nRef := (G j).nRef + (G l).nRef }

/-- The inner scan of `group_common_shared_memory_tile`: skip non-leaders
and groups without a shared bound, skip disjoint pairs, and merge when the
union of the two access relations still admits a shared tile. -/
def gcsmtScan (O : RelOracles) (nIdx : ℕ) (G : ℕ → RefGrp) (L : ℕ → ℕ)
    (l cnt : ℕ) : List ℕ → ((ℕ → RefGrp) × (ℕ → ℕ) × ℕ × ℕ)
  | [] => (G, L, l, cnt)
  | j :: js =>
    if L j ≠ j then gcsmtScan O nIdx G L l cnt js
    else if (G j).sharedBound = none then gcsmtScan O nIdx G L l cnt js
    else if (G l).access ∩ (G j).access = ∅ then gcsmtScan O nIdx G L l cnt js
    else
      match can_tile_for_shared_memory O nIdx ((G l).access ∪ (G j).access) with
      | none => gcsmtScan O nIdx G L l cnt js
      | some sb =>
          gcsmtScan O nIdx (gcsmtMergeG G l j sb) (Function.update L l j) j
            (cnt + 1) js

/-- The outer loop of `group_common_shared_memory_tile`: stops as soon as at
most one leader remains, skips non-leaders and groups without a shared
bound. -/
def gcsmtOuter (O : RelOracles) (nIdx : ℕ) : (ℕ → RefGrp) → (ℕ → ℕ) → ℕ →
    List ℕ → ((ℕ → RefGrp) × (ℕ → ℕ) × ℕ)
  | G, L, ng, [] => (G, L, ng)
  | G, L, ng, i :: is =>
    if ng ≤ 1 then (G, L, ng)
    else if L i ≠ i then gcsmtOuter O nIdx G L ng is
    else if (G i).sharedBound = none then gcsmtOuter O nIdx G L ng is
    else
      let r := gcsmtScan O nIdx G L i 0 (List.range i).reverse
      gcsmtOuter O nIdx r.1 r.2.1 (ng - r.2.2.2) is

/-- The single compression pass of `extract_array_groups`
(`leader[i] = leader[leader[i]]` for `i` from 2). -/
def compressLeader (n : ℕ) (L : ℕ → ℕ) : ℕ → ℕ :=
  ((List.range n).drop 2).foldl (fun L2 i => Function.update L2 i (L2 (L2 i))) L

/-- The ordinal assignment of `extract_array_groups`: leaders are numbered
in ascending order, and every reference whose (compressed) leader is `i`
has its `group` field set to the ordinal of `i`.  The result maps each
original reference index to its final group ordinal. -/
def extractAssign (n : ℕ) (G : ℕ → RefGrp) (L : ℕ → ℕ) :
    (ℕ → Option ℕ) × ℕ :=
  (List.range n).foldl
    (fun st i =>
      if L i = i then
        ((List.range' i (n - i)).foldl
          (fun a k => if L k = i then Function.update a (G k).refIdx (some st.2)
            else a) st.1,
         st.2 + 1)
      else st)
    (fun _ => none, 0)

/-- The scheduled singleton groups of the kernel (steps 1 of the grouping
pass): `populate_array_references` starting at reference index 0. -/
def popGroups (sched : IRel) (refs : List ARef) : List RefGrp :=
  populate_array_references sched 0 refs

/-- The conflict-merge phase (step 2 of the grouping pass): the state
examined between `group_overlapping_writes` and the shared-tile attempt. -/
def gowStage (sched : IRel) (refs : List ARef) :
    ((ℕ → RefGrp) × (ℕ → ℕ) × ℕ) :=
  group_overlapping_writes (popGroups sched refs).length (G0 (popGroups sched refs))

/-- Step 3 of the grouping pass: the shared-tile attempt on every leader. -/
def sharedStage (O : RelOracles) (nIdx : ℕ) (sched : IRel) (refs : List ARef) :
    ℕ → RefGrp :=
  sharedPass O nIdx (popGroups sched refs).length (gowStage sched refs).1
    (gowStage sched refs).2.1

/-- Step 4 of the grouping pass: `group_common_shared_memory_tile`. -/
def gcsmtStage (O : RelOracles) (nIdx : ℕ) (sched : IRel) (refs : List ARef) :
    ((ℕ → RefGrp) × (ℕ → ℕ) × ℕ) :=
  gcsmtOuter O nIdx (sharedStage O nIdx sched refs) (gowStage sched refs).2.1
    (gowStage sched refs).2.2 (List.range (popGroups sched refs).length)

/-- `group_array_references`: the full grouping pass.  Returns the map from
original reference index to final group ordinal (the `group` field of each
reference after `extract_array_groups`). -/
def group_array_references (O : RelOracles) (nIdx : ℕ) (sched : IRel)
    (refs : List ARef) : ℕ → Option ℕ :=
  (extractAssign (popGroups sched refs).length (gcsmtStage O nIdx sched refs).1
    (compressLeader (popGroups sched refs).length
      (gcsmtStage O nIdx sched refs).2.1)).1

/-! ## Private-memory promotion pass -/

/-- `next(dim, pos)` applied to a tuple: increment the coordinate at
position `pos`, keep all others. -/
def incrAt (v : Tup) (pos : ℕ) : Tup := v.set pos (v.getD pos 0 + 1)

/-- `group_access_relation(group, read, write)`: union of the access
relations of the member references selected by the read/write flags. -/
def group_access_relation (refs : List ARef) (r w : Bool) : IRel :=
  refs.foldl (fun acc a => if (r && a.read) || (w && a.write) then acc ∪ a.access
    else acc) ∅

/-- `access_is_coalesced`: apply the tiled schedule to the access relation,
then check that mapping one tiled point to an array element and its
successor (in the last thread-wrapped dimension, position `posT`) to
another element always gives the successor element in the innermost array
dimension.  `nIdx` is the dimensionality of the array space, so the
innermost array dimension is `nIdx - 1`. -/
def access_is_coalesced (tiledSched : IRel) (posT nIdx : ℕ)
    (access : IRel) : Bool :=
  let am := applyDomainRel tiledSched access
  let m := ((am ×ˢ am).filter fun q => q.2.1 = incrAt q.1.1 posT).image
    fun q => (q.1.2, q.2.2)
  decide (∀ q ∈ m, q.2 = incrAt q.1 (nIdx - 1))

/-- `check_private_group_access`: if the group access relation is injective
there is no reuse; in that case, when the group holds a shared bound and
the access is coalesced, the shared bound is dropped, and otherwise the
group is returned unchanged.  With reuse, the access is composed with the
shared schedule; if the result is not bijective the group is unchanged;
otherwise the relation restricted through the privatization map is handed
to the Bound Solver, and the private bound is stored on success (the
shared bound, if any, is not touched). -/
def check_private_group_access (O : RelOracles) (tiledSched sharedSched priv : IRel)
    (posT nIdx : ℕ) (grefs : List ARef) (g : RefGrp) : RefGrp :=
  let access := group_access_relation grefs true true
  if isInjectiveRel access then
    if g.sharedBound.isSome && access_is_coalesced tiledSched posT nIdx access then
      { g with sharedBound := none }
    else g
  else
    let acc := applyDomainRel sharedSched access
    if isBijectiveRel acc = false then g
    else
      match can_tile_for_shared_memory O nIdx (applyDomainRel priv acc) with
      | some bl => { g with privateBound := some bl }
      | none => { g with privateBound := none }

/-- `compute_private_size`: the promotion pass applied to every finalized
group (each paired with its member reference list). -/
def compute_private_size (O : RelOracles) (tiledSched sharedSched priv : IRel)
    (posT nIdx : ℕ) (groups : List (List ARef × RefGrp)) : List RefGrp :=
  groups.map fun q =>
    check_private_group_access O tiledSched sharedSched priv posT nIdx q.1 q.2

/-- The memory tier a group is emitted at. -/
inductive MemTier where
  | privateTier : MemTier
  | sharedTier : MemTier
  | globalTier : MemTier
deriving DecidableEq

/-- The tier selection used by the code emitter (`print_array_name`,
`print_group_shared_accesses`): `private_bound` is consulted first, then
`shared_bound`, and a group with a private bound generates no shared-memory
copy code even if a shared bound is still present. -/
def tierOf (g : RefGrp) : MemTier :=
  if g.privateBound.isSome then MemTier.privateTier
  else if g.sharedBound.isSome then MemTier.sharedTier
  else MemTier.globalTier

/-! ## Leader-array root chasing (proof infrastructure)

`leader` arrays as built by the grouping pass always point downwards, so
the root of an index is reached by iterating the array at most `k` times
from index `k`. -/

def rootN (L : ℕ → ℕ) : ℕ → ℕ → ℕ
  | 0, k => k
  | f + 1, k => if L k = k then k else rootN L f (L k)

/-- The leader-chain root of index `k`. -/
def rootF (L : ℕ → ℕ) (k : ℕ) : ℕ := rootN L k k

/-- The ordinal that `extract_array_groups` gives a leader index: the number
of leader indices below it. -/
def countRoots (L : ℕ → ℕ) (r : ℕ) : ℕ :=
  ((List.range r).filter fun m => decide (L m = m)).length


/-- A trivial instantiation of the external relation-library operations
(every hull is the empty constraint system and the LP solver always fails),
used to exercise the grouping pass at concrete inputs. -/
def trivOracles : RelOracles :=
  ⟨fun _ => ⟨0, []⟩, fun _ => [], fun b _ _ => b, fun _ _ => none⟩

/-- Concrete references used to exercise the conflict-merge phase: a write
of element 1, a read of element 0, and a read of both elements, all from
the same scheduled point. -/
def c4refs : List ARef :=
  [⟨{([0], [1])}, false, true⟩, ⟨{([0], [0])}, true, false⟩,
   ⟨{([0], [0]), ([0], [1])}, true, false⟩]

/-- The identity schedule on the single scheduled point used by the
concrete grouping scenarios. -/
def schedId : IRel := {([0], [0])}

/-- Two references of one array that overlap on element 5, the first a
write: a minimal conflicting pair. -/
def c1refs : List ARef :=
  [⟨{([0], [5])}, false, true⟩, ⟨{([0], [5])}, true, false⟩]


/-- External-library operations that make every tiling attempt succeed with
a one-element tile: the hull of any projected access is the constraint
system `0 <= j <= 1` and the LP maximum of `j - 0` is 1. -/
def promOracles : RelOracles :=
  ⟨fun _ => ⟨0, [⟨false, [], [], 1, [], 0⟩, ⟨false, [], [], -1, [], 1⟩]⟩,
   fun _ => [], fun b _ _ => b, fun _ c => if c.outC = 1 then some 1 else none⟩

/-- One read reference with reuse: iterations `(0,0)` and `(0,1)` both
touch element 0. -/
def c2refs : List ARef := [⟨{([0, 0], [0]), ([0, 1], [0])}, true, false⟩]

/-- Identity schedule on the two iteration points of `c2refs`. -/
def c2sched : IRel := {([0, 0], [0, 0]), ([0, 1], [0, 1])}

/-- Shared schedule collapsing the inner reuse loop: both iterations map to
the same shared point. -/
def c2shared : IRel := {([0, 0], [0]), ([0, 1], [0])}

/-- Identity privatization map on the single shared point. -/
def c2priv : IRel := {([0], [0])}

/-- The identity access `index = thread_id` on four threads. -/
def idAcc : IRel := {([0], [0]), ([1], [1]), ([2], [2]), ([3], [3])}

/-- A single read reference with the identity access. -/
def idRefs : List ARef := [⟨idAcc, true, false⟩]

/-- A group holding the identity access and a shared bound. -/
def c6grp : RefGrp :=
  ⟨0, idAcc, false, 1, some [⟨1, none, -1, none⟩], none⟩

/-- A write group with a shared bound, used to exercise the fallback when
the Bound Solver fails. -/
def c7grp : RefGrp :=
  ⟨0, {([0], [0])}, true, 1, some [⟨1, none, -1, none⟩], none⟩


/-- The stride information found by `check_stride` for a basic map. -/
def strideSt (affHull : BasicMap → List Constr)
    (applyShiftMap : BasicMap → ℤ → AffP → BasicMap) (bm : BasicMap) : StrideSt :=
  (check_stride affHull applyShiftMap bm).1

/-- The (possibly stride-rewritten) basic map the size fold runs over. -/
def strideBM (affHull : BasicMap → List Constr)
    (applyShiftMap : BasicMap → ℤ → AffP → BasicMap) (bm : BasicMap) : BasicMap :=
  (check_stride affHull applyShiftMap bm).2

/-- The re-index map `i -> (i + shift)/stride` stored in `shift_map` when a
stride was found (the identity otherwise). -/
def reIndex (st : StrideSt) (p : List ℤ) (j : ℤ) : ℤ :=
  match st.shift with
  | some a => (j + evalAffP a p) / st.stride
  | none => j

/-- The basic map of the stride scenario `A[2*i+1]`, `i` in `[0, K)`: the
defining equality `j - 2e - 1 = 0` together with `e >= 0` and
`K - 1 - e >= 0`, with one existentially quantified div variable `e`. -/
def c8bm (K : ℕ) : BasicMap :=
  ⟨1, [⟨true, [], [], 1, [-2], -1⟩, ⟨false, [], [], 0, [1], 0⟩,
       ⟨false, [], [], 0, [-1], (K : ℤ) - 1⟩]⟩

/-- The defining equality of the stride scenario, as returned by the
external affine hull. -/
def c8eq : Constr := ⟨true, [], [], 1, [-2], -1⟩

/-- The composition of the scenario's map with the re-index map
`j -> (j - 1)/2`, as simplified by the external relation library:
`0 <= j' <= K - 1` with the div variable eliminated. -/
def c8bmShifted (K : ℕ) : BasicMap :=
  ⟨0, [⟨false, [], [], 1, [], 0⟩, ⟨false, [], [], -1, [], (K : ℤ) - 1⟩]⟩

/-- The external affine hull on the stride scenario. -/
def c8affHull : BasicMap → List Constr := fun _ => [c8eq]

/-- The external shift-map composition on the stride scenario. -/
def c8shiftO (K : ℕ) : BasicMap → ℤ → AffP → BasicMap :=
  fun _ _ _ => c8bmShifted K

/-- The external integer LP maximiser on the stride scenario: the maximum
of `j' - 0` over `[0, K-1]` is `K - 1`. -/
def c8lpMax (K : ℕ) : BasicMap → Constr → Option ℤ :=
  fun _ c => if c.outC = 1 then some ((K : ℤ) - 1) else none

instance decSatC (c : Constr) (p x : List ℤ) (j : ℤ) (e : List ℤ) :
    Decidable (satC c p x j e) := by
  unfold satC
  infer_instance

/-- A stride-free external affine hull (no equalities found). -/
def c3Aff : BasicMap → List Constr := fun _ => []

/-- Shift-map composition, never reached when no stride is found. -/
def c3Shift : BasicMap → ℤ → AffP → BasicMap := fun b _ _ => b

/-- LP maximiser for the interval system: the maximum of `j - 0` over
`0 <= j <= 2` is 2. -/
def c3Lp : BasicMap → Constr → Option ℤ :=
  fun _ c => if c.outC = 1 then some 2 else none

/-- The interval constraint system `0 <= j <= 2` with no div variables. -/
def c3bm : BasicMap :=
  ⟨0, [⟨false, [], [], 1, [], 0⟩, ⟨false, [], [], -1, [], 2⟩]⟩

/-- The bound the solver computes for `c3bm`: size 3, lower bound `0/1`,
no stride. -/
def c3b : CBound := ⟨3, some ⟨1, [], [], 0⟩, -1, none⟩

/-! ## Theorems -/

theorem rootN_congr (L : ℕ → ℕ) (hL : ∀ m, L m ≤ m) :
    ∀ k f g, k ≤ f → k ≤ g → rootN L f k = rootN L g k := by
  intro k
  induction k using Nat.strong_induction_on with
  | _ k ih =>
    intro f g hf hg
    match f, g with
    | 0, 0 => rfl
    | 0, g + 1 =>
      have hk : k = 0 := by omega
      subst hk
      have h0 : L 0 = 0 := by have := hL 0; omega
      simp [rootN, h0]
    | f + 1, 0 =>
      have hk : k = 0 := by omega
      subst hk
      have h0 : L 0 = 0 := by have := hL 0; omega
      simp [rootN, h0]
    | f + 1, g + 1 =>
      by_cases hr : L k = k
      · simp [rootN, hr]
      · simp only [rootN, if_neg hr]
        have hlt : L k < k := by have := hL k; omega
        exact ih (L k) hlt f g (by omega) (by omega)

theorem rootF_fix (L : ℕ → ℕ) (k : ℕ) (h : L k = k) : rootF L k = k := by
  unfold rootF
  cases k with
  | zero => rfl
  | succ m => simp [rootN, h]

theorem rootF_step (L : ℕ → ℕ) (hL : ∀ m, L m ≤ m) (k : ℕ) (h : L k ≠ k) :
    rootF L k = rootF L (L k) := by
  have hlt : L k < k := by have := hL k; omega
  unfold rootF
  match hk : k with
  | 0 => omega
  | m + 1 =>
    simp only [rootN, if_neg h]
    exact rootN_congr L hL (L (m + 1)) m (L (m + 1)) (by omega) (by omega)

theorem rootF_root (L : ℕ → ℕ) (hL : ∀ m, L m ≤ m) (k : ℕ) :
    L (rootF L k) = rootF L k := by
  induction k using Nat.strong_induction_on with
  | _ k ih =>
    by_cases h : L k = k
    · rw [rootF_fix L k h]; exact h
    · rw [rootF_step L hL k h]
      exact ih (L k) (by have := hL k; omega)

theorem rootF_le (L : ℕ → ℕ) (hL : ∀ m, L m ≤ m) (k : ℕ) : rootF L k ≤ k := by
  induction k using Nat.strong_induction_on with
  | _ k ih =>
    by_cases h : L k = k
    · rw [rootF_fix L k h]
    · rw [rootF_step L hL k h]
      have h1 := ih (L k) (by have := hL k; omega)
      have h2 := hL k
      omega

theorem rootF_of_root (L : ℕ → ℕ) (k : ℕ) (h : L k = k) : rootF L k = k :=
  rootF_fix L k h

theorem rootF_congr_below (L L2 : ℕ → ℕ) (hL : ∀ m, L m ≤ m)
    (hL2 : ∀ m, L2 m ≤ m) :
    ∀ k, (∀ m, m ≤ k → L2 m = L m) → rootF L2 k = rootF L k := by
  intro k
  induction k using Nat.strong_induction_on with
  | _ k ih =>
    intro hag
    have he : L2 k = L k := hag k (le_refl k)
    by_cases h : L k = k
    · rw [rootF_fix L k h, rootF_fix L2 k (by omega)]
    · rw [rootF_step L hL k h, rootF_step L2 hL2 k (by omega), he]
      exact ih (L k) (by have := hL k; omega)
        (fun m hm => hag m (by have := hL k; omega))

theorem hdec_update (L : ℕ → ℕ) (hL : ∀ m, L m ≤ m) (r c : ℕ) (hcr : c ≤ r) :
    ∀ m, Function.update L r c m ≤ m := by
  intro m
  by_cases h : m = r
  · subst h; simp [Function.update, hcr]
  · rw [Function.update]
    simp only [dif_neg h]
    exact hL m

theorem rootF_update_merge (L : ℕ → ℕ) (hL : ∀ m, L m ≤ m) (r c : ℕ)
    (hr : L r = r) (hc : L c = c) (hcr : c < r) :
    ∀ k, rootF (Function.update L r c) k =
      if rootF L k = r then c else rootF L k := by
  have hL' := hdec_update L hL r c (by omega)
  intro k
  induction k using Nat.strong_induction_on with
  | _ k ih =>
    by_cases hk : k = r
    · subst hk
      have h1 : Function.update L k c k = c := by simp [Function.update]
      have h2 : rootF (Function.update L k c) k = rootF (Function.update L k c) c := by
        rw [rootF_step (Function.update L k c) hL' k (by omega)]
        rw [h1]
      rw [h2, rootF_congr_below L (Function.update L k c) hL hL' c
        (fun m hm => by rw [Function.update]; simp only [dif_neg (by omega : ¬ m = k)])]
      rw [rootF_fix L c hc, rootF_fix L k hr]
      simp
    · by_cases hroot : L k = k
      · have h1 : Function.update L r c k = k := by
          rw [Function.update]; simp only [dif_neg hk]; exact hroot
        rw [rootF_fix _ k h1, rootF_fix L k hroot]
        simp [if_neg (by omega : ¬ k = r)]
      · have h1 : Function.update L r c k = L k := by
          rw [Function.update]; simp only [dif_neg hk]
        rw [rootF_step _ hL' k (by omega), h1]
        rw [rootF_step L hL k hroot]
        exact ih (L k) (by have := hL k; omega)

theorem rootF_update_compress (L : ℕ → ℕ) (hL : ∀ m, L m ≤ m) (i : ℕ) :
    ∀ k, rootF (Function.update L i (L (L i))) k = rootF L k := by
  have hv : L (L i) ≤ i := le_trans (hL (L i)) (hL i)
  have hL' := hdec_update L hL i (L (L i)) hv
  intro k
  induction k using Nat.strong_induction_on with
  | _ k ih =>
    by_cases hk : k = i
    · subst hk
      by_cases hroot : L k = k
      · have h1 : Function.update L k (L (L k)) k = k := by
          simp [Function.update, hroot]
        rw [rootF_fix _ k h1, rootF_fix L k hroot]
      · have hlt : L k < k := by have := hL k; omega
        have hlt2 : L (L k) < k := by have := hL (L k); omega
        have h1 : Function.update L k (L (L k)) k = L (L k) := by
          simp [Function.update]
        rw [rootF_step _ hL' k (by omega), h1, ih (L (L k)) hlt2]
        rw [rootF_step L hL k hroot]
        by_cases hroot2 : L (L k) = L k
        · rw [hroot2]
        · rw [rootF_step L hL (L k) hroot2]
    · by_cases hroot : L k = k
      · have h1 : Function.update L i (L (L i)) k = k := by
          rw [Function.update]; simp only [dif_neg hk]; exact hroot
        rw [rootF_fix _ k h1, rootF_fix L k hroot]
      · have h1 : Function.update L i (L (L i)) k = L k := by
          rw [Function.update]; simp only [dif_neg hk]
        rw [rootF_step _ hL' k (by omega), h1, ih (L k) (by have := hL k; omega)]
        rw [rootF_step L hL k hroot]

theorem rootF_zero (L : ℕ → ℕ) (hL : ∀ m, L m ≤ m) : rootF L 0 = 0 :=
  rootF_fix L 0 (by have := hL 0; omega)

theorem rootF_one (L : ℕ → ℕ) (hL : ∀ m, L m ≤ m) : L 1 = rootF L 1 := by
  by_cases h : L 1 = 1
  · rw [rootF_fix L 1 h, h]
  · have h0 : L 1 = 0 := by have := hL 1; omega
    rw [rootF_step L hL 1 h, h0, rootF_zero L hL]

theorem drop2_range (n : ℕ) : (List.range n).drop 2 = List.range' 2 (n - 2) := by
  match n with
  | 0 => rfl
  | 1 => rfl
  | m + 2 =>
    rw [List.range_eq_range', show m + 2 = (m + 1) + 1 from rfl, List.range'_succ,
      List.range'_succ]
    simp

theorem compress_fold (L0 : ℕ → ℕ) (_hL0 : ∀ m, L0 m ≤ m) :
    ∀ (len s : ℕ) (L : ℕ → ℕ), (∀ m, L m ≤ m) →
    (∀ k, rootF L k = rootF L0 k) →
    (∀ k, k < s → L k = rootF L0 k) →
    (∀ k, s ≤ k → L k = L0 k) →
    ((∀ m, ((List.range' s len).foldl
        (fun L2 i => Function.update L2 i (L2 (L2 i))) L) m ≤ m) ∧
     (∀ k, k < s + len → ((List.range' s len).foldl
        (fun L2 i => Function.update L2 i (L2 (L2 i))) L) k = rootF L0 k)) := by
  intro len
  induction len with
  | zero => intro s L hL hroot hlow _; exact ⟨hL, fun k hk => hlow k (by omega)⟩
  | succ m ih =>
    intro s L hL hroot hlow hhigh
    rw [List.range'_succ, List.foldl_cons]
    have hvs : L (L s) ≤ s := le_trans (hL (L s)) (hL s)
    have hL' := hdec_update L hL s (L (L s)) hvs
    have hroot' : ∀ k, rootF (Function.update L s (L (L s))) k = rootF L0 k :=
      fun k => (rootF_update_compress L hL s k).trans (hroot k)
    have hlow' : ∀ k, k < s + 1 → Function.update L s (L (L s)) k = rootF L0 k := by
      intro k hk
      by_cases hks : k = s
      · rw [hks]
        have hupd : Function.update L s (L (L s)) s = L (L s) := by
          simp [Function.update]
        rw [hupd]
        by_cases hr : L s = s
        · rw [hr, hr, ← hroot s, rootF_fix L s hr]
        · have hlt : L s < s := by have := hL s; omega
          rw [hlow (L s) hlt]
          have hk0 : L s = L0 s := hhigh s (le_refl s)
          rw [← hroot s, rootF_step L hL s hr, hroot (L s), hk0]
      · rw [Function.update]
        simp only [dif_neg hks]
        exact hlow k (by omega)
    have hhigh' : ∀ k, s + 1 ≤ k → Function.update L s (L (L s)) k = L0 k := by
      intro k hk
      rw [Function.update]
      simp only [dif_neg (by omega : ¬ k = s)]
      exact hhigh k (by omega)
    have := ih (s + 1) (Function.update L s (L (L s))) hL' hroot' hlow' hhigh'
    exact ⟨this.1, fun k hk => this.2 k (by omega)⟩

theorem int_ediv_of_decomp (a b q r : ℤ) (hb : 0 < b) (h : a = b * q + r)
    (h0 : 0 ≤ r) (h1 : r < b) : a / b = q ∧ a % b = r := by
  exact (Int.ediv_emod_unique hb).mpr (by constructor <;> omega)

/-- C9: `tile(len, first, tile_len, sizes)` relates `x` to `y` exactly when
`y` copies the coordinates of `x` outside `[first, first+tile_len)` and
splits each coordinate inside the range into quotient and remainder by the
corresponding size; `wrap` relates `x` to `y` exactly when `y` keeps the
original coordinates and appends the remainders, the quotient being
existentially quantified and projected away. -/
theorem tile_wrap_characterization (len first tl : ℕ) (ts : ℕ → ℤ) (x y : ℕ → ℤ)
    (hlen : first + tl ≤ len) (hts : ∀ i, i < tl → 0 < ts i) :
    (tile len first tl ts x y ↔
      ∀ k, k < len + tl → y k = tileSpec first tl ts x k) ∧
    (wrap len first tl ts x y ↔
      ∀ k, k < len + tl → y k = wrapSpec first tl ts x k) := by
  constructor
  · constructor
    · rintro ⟨hcopy, heq, hbnd⟩ k hk
      unfold tileSpec
      by_cases h1 : k < first
      · simp only [if_pos h1]
        have := hcopy k (by omega)
        simpa [if_pos h1] using this
      · by_cases h2 : k < first + tl
        · simp only [if_neg h1, if_pos h2]
          have hi : k - first < tl := by omega
          have he := heq (k - first) hi
          have hb := hbnd (k - first) hi
          rw [show first + (k - first) + tl = k + tl from by omega] at he hb
          rw [show first + (k - first) = k from by omega] at he
          exact ((int_ediv_of_decomp (x k) (ts (k - first)) (y k)
            (y (k + tl)) (hts _ hi) he hb.1 (by omega)).1).symm
        · by_cases h3 : k < first + 2 * tl
          · simp only [if_neg h1, if_neg h2, if_pos h3]
            have hi : k - first - tl < tl := by omega
            have he := heq (k - first - tl) hi
            have hb := hbnd (k - first - tl) hi
            rw [show first + (k - first - tl) + tl = k from by omega] at he hb
            rw [show first + (k - first - tl) = k - tl from by omega] at he
            exact ((int_ediv_of_decomp (x (k - tl)) (ts (k - first - tl))
              (y (k - tl)) (y k) (hts _ hi) he hb.1 (by omega)).2).symm
          · simp only [if_neg h1, if_neg h2, if_neg h3]
            have hi : k - 2 * tl < len - tl := by omega
            have hge : ¬ (k - 2 * tl < first) := by omega
            have := hcopy (k - 2 * tl) hi
            rw [if_neg hge, if_neg hge] at this
            rw [show k - 2 * tl + 2 * tl = k from by omega,
              show k - 2 * tl + tl = k - tl from by omega] at this
            exact this
    · intro hy
      refine ⟨?_, ?_, ?_⟩
      · intro i hi
        by_cases h1 : i < first
        · simp only [if_pos h1]
          rw [hy i (by omega)]
          unfold tileSpec
          simp [h1]
        · simp only [if_neg h1]
          rw [hy (i + 2 * tl) (by omega)]
          unfold tileSpec
          have c1 : ¬ (i + 2 * tl < first) := by omega
          have c2 : ¬ (i + 2 * tl < first + tl) := by omega
          have c3 : ¬ (i + 2 * tl < first + 2 * tl) := by omega
          simp only [if_neg c1, if_neg c2, if_neg c3]
          congr 1
          omega
      · intro i hi
        rw [hy (first + i) (by omega), hy (first + i + tl) (by omega)]
        unfold tileSpec
        have c1 : ¬ (first + i < first) := by omega
        have c2 : first + i < first + tl := by omega
        have d1 : ¬ (first + i + tl < first) := by omega
        have d2 : ¬ (first + i + tl < first + tl) := by omega
        have d3 : first + i + tl < first + 2 * tl := by omega
        simp only [if_neg c1, if_pos c2, if_neg d1, if_neg d2, if_pos d3]
        rw [show first + i - first = i from by omega,
          show first + i + tl - tl = first + i from by omega,
          show first + i + tl - first - tl = i from by omega]
        linarith [Int.ediv_add_emod (x (first + i)) (ts i)]
      · intro i hi
        rw [hy (first + i + tl) (by omega)]
        unfold tileSpec
        have d1 : ¬ (first + i + tl < first) := by omega
        have d2 : ¬ (first + i + tl < first + tl) := by omega
        have d3 : first + i + tl < first + 2 * tl := by omega
        simp only [if_neg d1, if_neg d2, if_pos d3]
        rw [show first + i + tl - tl = first + i from by omega,
          show first + i + tl - first - tl = i from by omega]
        have h0 := @Int.emod_nonneg (x (first + i)) (ts i) (by have := hts i hi; omega)
        have h1 := Int.emod_lt_of_pos (x (first + i)) (hts i hi)
        exact ⟨h0, by linarith⟩
  · constructor
    · rintro ⟨z, ⟨hcopy, heq, hbnd⟩, hlow, hhigh⟩ k hk
      unfold wrapSpec
      by_cases h1 : k < first + tl
      · simp only [if_pos h1]
        rw [hlow k (by omega)]
        have := hcopy k (by omega)
        simpa [if_pos h1] using this
      · by_cases h2 : k < first + 2 * tl
        · simp only [if_neg h1, if_pos h2]
          rw [hlow k (by omega)]
          have hi : k - first - tl < tl := by omega
          have he := heq (k - first - tl) hi
          have hb := hbnd (k - first - tl) hi
          rw [show first + tl + (k - first - tl) = k from by omega] at he hb
          rw [show first + (k - first - tl) = k - tl from by omega] at he
          have hx : z (k - tl) = x (k - tl) := by
            have hc : k - tl < first + tl := by omega
            have := hcopy (k - tl) (by omega)
            simpa [if_pos hc] using this
          rw [hx] at he
          exact ((int_ediv_of_decomp (x (k - tl)) (ts (k - first - tl))
            (z (first + 2 * tl + (k - first - tl))) (z k) (hts _ hi)
            (by rw [he]; ring) hb.1 (by omega)).2).symm
        · simp only [if_neg h1, if_neg h2]
          rw [hhigh k (by omega) hk]
          have hi : k - tl < len := by omega
          have hge : ¬ (k - tl < first + tl) := by omega
          have := hcopy (k - tl) hi
          rw [if_neg hge, show k - tl + 2 * tl = k + tl from by omega] at this
          exact this
    · intro hy
      refine ⟨fun k => if k < first + 2 * tl then y k
          else if k < first + 3 * tl then x (k - tl - tl) / ts (k - first - 2 * tl)
          else y (k - tl), ⟨?_, ?_, ?_⟩, ?_, ?_⟩
      · intro i hi
        by_cases h1 : i < first + tl
        · simp only [if_pos h1, if_pos (show i < first + 2 * tl from by omega)]
          rw [hy i (by omega)]
          unfold wrapSpec
          simp [h1]
        · simp only [if_neg h1]
          have c1 : ¬ (i + 2 * tl < first + 2 * tl) := by omega
          have c2 : ¬ (i + 2 * tl < first + 3 * tl) := by omega
          simp only [if_neg c1, if_neg c2]
          rw [hy (i + 2 * tl - tl) (by omega)]
          unfold wrapSpec
          have d1 : ¬ (i + 2 * tl - tl < first + tl) := by omega
          have d2 : ¬ (i + 2 * tl - tl < first + 2 * tl) := by omega
          simp only [if_neg d1, if_neg d2]
          congr 1
          omega
      · intro i hi
        have c1 : first + i < first + 2 * tl := by omega
        have c2 : first + tl + i < first + 2 * tl := by omega
        have c3 : ¬ (first + 2 * tl + i < first + 2 * tl) := by omega
        have c4 : first + 2 * tl + i < first + 3 * tl := by omega
        simp only [if_pos c1, if_pos c2, if_neg c3, if_pos c4]
        rw [hy (first + i) (by omega), hy (first + tl + i) (by omega)]
        unfold wrapSpec
        have d1 : first + i < first + tl := by omega
        have e1 : ¬ (first + tl + i < first + tl) := by omega
        have e2 : first + tl + i < first + 2 * tl := by omega
        simp only [if_pos d1, if_neg e1, if_pos e2]
        rw [show first + tl + i - tl = first + i from by omega,
          show first + tl + i - first - tl = i from by omega,
          show first + 2 * tl + i - tl - tl = first + i from by omega,
          show first + 2 * tl + i - first - 2 * tl = i from by omega]
        linarith [Int.ediv_add_emod (x (first + i)) (ts i)]
      · intro i hi
        have c2 : first + tl + i < first + 2 * tl := by omega
        simp only [if_pos c2]
        rw [hy (first + tl + i) (by omega)]
        unfold wrapSpec
        have e1 : ¬ (first + tl + i < first + tl) := by omega
        have e2 : first + tl + i < first + 2 * tl := by omega
        simp only [if_neg e1, if_pos e2]
        rw [show first + tl + i - tl = first + i from by omega,
          show first + tl + i - first - tl = i from by omega]
        have h0 := @Int.emod_nonneg (x (first + i)) (ts i) (by have := hts i hi; omega)
        have h1 := Int.emod_lt_of_pos (x (first + i)) (hts i hi)
        exact ⟨h0, by linarith⟩
      · intro k hk
        simp [if_pos hk]
      · intro k hk1 hk2
        have c1 : ¬ (k + tl < first + 2 * tl) := by omega
        have c2 : ¬ (k + tl < first + 3 * tl) := by omega
        simp only [if_neg c1, if_neg c2]
        congr 1
        omega

/-- Witness for `tile_wrap_characterization`: at `len = 2`, `first = 0`,
`tile_len = 1`, size 2, the input tuple `(5, 9)` is related by `tile` to
`(2, 1, 9)` (5 = 2*2+1) and by `wrap` to `(5, 1, 9)`. -/
theorem tile_wrap_characterization_witness :
    tile 2 0 1 (fun _ => 2) (fun k => if k = 0 then 5 else 9)
      (fun k => if k = 0 then 2 else if k = 1 then 1 else 9) ∧
    wrap 2 0 1 (fun _ => 2) (fun k => if k = 0 then 5 else 9)
      (fun k => if k = 0 then 5 else if k = 1 then 1 else 9) := by
  constructor
  · exact (tile_wrap_characterization 2 0 1 (fun _ => 2)
      (fun k => if k = 0 then 5 else 9)
      (fun k => if k = 0 then 2 else if k = 1 then 1 else 9) (by omega)
      (fun i _ => by norm_num)).1.mpr (by decide)
  · exact (tile_wrap_characterization 2 0 1 (fun _ => 2)
      (fun k => if k = 0 then 5 else 9)
      (fun k => if k = 0 then 5 else if k = 1 then 1 else 9) (by omega)
      (fun i _ => by norm_num)).2.mpr (by decide)



/-- Two initial groups conflict: their scheduled access relations intersect
and at least one writes. -/
def Conf (A : ℕ → IRel) (W : ℕ → Bool) (j k : ℕ) : Prop :=
  ((A j) ∩ (A k)).Nonempty ∧ (W j = true ∨ W k = true)

/-- Invariant of the inner scan of `group_overlapping_writes` when the
indices `c - 1, ..., 0` remain to be examined while merging the group of
`i` downwards (current leader `l`). -/
structure ScanInv (A : ℕ → IRel) (W : ℕ → Bool) (i c : ℕ)
    (G : ℕ → RefGrp) (L : ℕ → ℕ) (l : ℕ) : Prop where
  hdec : ∀ m, L m ≤ m
  hLupp : ∀ m, i < m → L m = m
  hGupp : ∀ m, i < m → (G m).access = A m ∧ (G m).write = W m
  hlle : l ≤ i
  hlroot : L l = l
  hcl : c ≤ l
  hrootI : rootF L i = l
  haccI : A i ⊆ (G l).access
  hwI : W i = true → (G l).write = true
  hacc : ∀ k, k < i → A k ⊆ (G (rootF L k)).access
  hw : ∀ k, k < i → W k = true → (G (rootF L k)).write = true
  hclosed : ∀ j k, j < i → k < i → Conf A W j k → rootF L j = rootF L k
  hconf : ∀ k, k < i → Conf A W i k → c ≤ rootF L k → rootF L k = l

/-- Invariant of the outer loop of `group_overlapping_writes` before index
`i` is processed. -/
structure OuterInv (A : ℕ → IRel) (W : ℕ → Bool) (i : ℕ)
    (G : ℕ → RefGrp) (L : ℕ → ℕ) : Prop where
  hdec : ∀ m, L m ≤ m
  hLupp : ∀ m, i ≤ m → L m = m
  hGupp : ∀ m, i ≤ m → (G m).access = A m ∧ (G m).write = W m
  hacc : ∀ k, k < i → A k ⊆ (G (rootF L k)).access
  hw : ∀ k, k < i → W k = true → (G (rootF L k)).write = true
  hclosed : ∀ j k, j < i → k < i → Conf A W j k → rootF L j = rootF L k

theorem conf_symm (A : ℕ → IRel) (W : ℕ → Bool) (j k : ℕ) (h : Conf A W j k) :
    Conf A W k j := by
  obtain ⟨h1, h2⟩ := h
  exact ⟨by rwa [Finset.inter_comm], h2.symm⟩

theorem gowMergeG_refIdx (G : ℕ → RefGrp) (l j m : ℕ) :
    (gowMergeG G l j m).refIdx = (G m).refIdx := by
  unfold gowMergeG
  by_cases h1 : m = l
  · subst h1; simp
  · rw [Function.update_noteq h1]
    by_cases h2 : m = j
    · subst h2; simp
    · rw [Function.update_noteq h2]

theorem gowMergeG_at_j (G : ℕ → RefGrp) (l j : ℕ) (h : j ≠ l) :
    gowMergeG G l j j =
      { G j with
        access := (G j).access ∪ (G l).access
        write := true
        nRef := (G j).nRef + (G l).nRef } := by
  unfold gowMergeG
  rw [Function.update_noteq h, Function.update_same]

theorem gowMergeG_at_other (G : ℕ → RefGrp) (l j m : ℕ) (h1 : m ≠ l)
    (h2 : m ≠ j) : gowMergeG G l j m = G m := by
  unfold gowMergeG
  rw [Function.update_noteq h1, Function.update_noteq h2]

theorem gowScan_inv (A : ℕ → IRel) (W : ℕ → Bool) (i : ℕ) :
    ∀ (c : ℕ) (G : ℕ → RefGrp) (L : ℕ → ℕ) (l cnt : ℕ),
    ScanInv A W i c G L l →
    ScanInv A W i 0 (gowScan G L l cnt ((List.range c).reverse)).1
      (gowScan G L l cnt ((List.range c).reverse)).2.1
      (gowScan G L l cnt ((List.range c).reverse)).2.2.1 ∧
    (∀ m, ((gowScan G L l cnt ((List.range c).reverse)).1 m).refIdx
      = (G m).refIdx) := by
  intro c
  induction c with
  | zero =>
    intro G L l cnt hinv
    simp only [List.range_zero, List.reverse_nil, gowScan]
    exact ⟨hinv, fun m => by simp⟩
  | succ c ih =>
    intro G L l cnt hinv
    rw [show (List.range (c + 1)).reverse = c :: (List.range c).reverse by
      rw [List.range_succ]; simp]
    have hroots : ∀ k, L (rootF L k) = rootF L k :=
      fun k => rootF_root L hinv.hdec k
    by_cases h1 : L c = c
    · by_cases h2 : (G l).write = false ∧ (G c).write = false
      · -- neither group writes: skip
        rw [show gowScan G L l cnt (c :: (List.range c).reverse)
            = gowScan G L l cnt ((List.range c).reverse) by
          simp only [gowScan]
          rw [if_neg (by simp [h1]), if_pos h2]]
        refine ih G L l cnt ?_
        refine ⟨hinv.hdec, hinv.hLupp, hinv.hGupp, hinv.hlle, hinv.hlroot,
          by have := hinv.hcl; omega, hinv.hrootI, hinv.haccI, hinv.hwI,
          hinv.hacc, hinv.hw, hinv.hclosed, ?_⟩
        intro k hk hcf hle
        by_cases hrc : rootF L k = c
        · exfalso
          rcases hcf.2 with hwi | hwk
          · have := hinv.hwI hwi
            rw [this] at h2
            exact absurd h2.1 (by simp)
          · have := hinv.hw k hk hwk
            rw [hrc] at this
            rw [this] at h2
            exact absurd h2.2 (by simp)
        · exact hinv.hconf k hk hcf (by omega)
      · by_cases h3 : (G l).access ∩ (G c).access = ∅
        · -- disjoint groups: skip
          rw [show gowScan G L l cnt (c :: (List.range c).reverse)
              = gowScan G L l cnt ((List.range c).reverse) by
            simp only [gowScan]
            rw [if_neg (by simp [h1]), if_neg h2, if_pos h3]]
          refine ih G L l cnt ?_
          refine ⟨hinv.hdec, hinv.hLupp, hinv.hGupp, hinv.hlle, hinv.hlroot,
            by have := hinv.hcl; omega, hinv.hrootI, hinv.haccI, hinv.hwI,
            hinv.hacc, hinv.hw, hinv.hclosed, ?_⟩
          intro k hk hcf hle
          by_cases hrc : rootF L k = c
          · exfalso
            obtain ⟨x, hx⟩ := hcf.1
            rw [Finset.mem_inter] at hx
            have hxl : x ∈ (G l).access := hinv.haccI hx.1
            have hxc : x ∈ (G c).access := by
              have := hinv.hacc k hk
              rw [hrc] at this
              exact this hx.2
            have : x ∈ (G l).access ∩ (G c).access := Finset.mem_inter.mpr ⟨hxl, hxc⟩
            rw [h3] at this
            exact absurd this (Finset.not_mem_empty x)
          · exact hinv.hconf k hk hcf (by omega)
        · -- merge the group of l into the group of c
          rw [show gowScan G L l cnt (c :: (List.range c).reverse)
              = gowScan (gowMergeG G l c) (Function.update L l c) c (cnt + 1)
                  ((List.range c).reverse) by
            simp only [gowScan]
            rw [if_neg (by simp [h1]), if_neg h2, if_neg h3]]
          have hcl : c < l := by have := hinv.hcl; omega
          have hli : l ≤ i := hinv.hlle
          have hru : ∀ k, rootF (Function.update L l c) k =
              if rootF L k = l then c else rootF L k :=
            rootF_update_merge L hinv.hdec l c hinv.hlroot h1 hcl
          have hGc := gowMergeG_at_j G l c (by omega)
          have hres := ih (gowMergeG G l c) (Function.update L l c) c (cnt + 1) ?_
          · exact ⟨hres.1, fun m => (hres.2 m).trans (gowMergeG_refIdx G l c m)⟩
          refine ⟨hdec_update L hinv.hdec l c (by omega), ?_, ?_,
            by omega, ?_, le_refl c, ?_, ?_, ?_, ?_, ?_, ?_, ?_⟩
          · intro m hm
            have hml : m ≠ l := by omega
            rw [Function.update_noteq hml]
            exact hinv.hLupp m hm
          · intro m hm
            have hml : m ≠ l := by omega
            have hmc : m ≠ c := by omega
            rw [gowMergeG_at_other G l c m hml hmc]
            exact hinv.hGupp m hm
          · rw [Function.update_noteq (by omega : c ≠ l)]
            exact h1
          · rw [hru i, hinv.hrootI]
            simp
          · rw [hGc]
            exact fun x hx => Finset.mem_union_right _ (hinv.haccI hx)
          · intro _
            rw [hGc]
          · intro k hk
            rw [hru k]
            by_cases hrl : rootF L k = l
            · rw [if_pos hrl, hGc]
              have := hinv.hacc k hk
              rw [hrl] at this
              exact fun x hx => Finset.mem_union_right _ (this hx)
            · rw [if_neg hrl]
              by_cases hrc : rootF L k = c
              · rw [hrc, hGc]
                have := hinv.hacc k hk
                rw [hrc] at this
                exact fun x hx => Finset.mem_union_left _ (this hx)
              · rw [gowMergeG_at_other G l c (rootF L k) hrl hrc]
                exact hinv.hacc k hk
          · intro k hk hwk
            rw [hru k]
            by_cases hrl : rootF L k = l
            · rw [if_pos hrl, hGc]
            · rw [if_neg hrl]
              by_cases hrc : rootF L k = c
              · rw [hrc, hGc]
              · rw [gowMergeG_at_other G l c (rootF L k) hrl hrc]
                exact hinv.hw k hk hwk
          · intro j k hj hk hcf
            rw [hru j, hru k, hinv.hclosed j k hj hk hcf]
          · intro k hk hcf hle
            rw [hru k]
            by_cases hrl : rootF L k = l
            · rw [if_pos hrl]
            · rw [if_neg hrl]
              rw [hru k, if_neg hrl] at hle
              by_cases hrc : rootF L k = c
              · exact hrc
              · exact absurd (hinv.hconf k hk hcf (by omega)) hrl
    · -- index c is not a leader: skip
      rw [show gowScan G L l cnt (c :: (List.range c).reverse)
          = gowScan G L l cnt ((List.range c).reverse) by
        simp only [gowScan]
        rw [if_pos (by simp [h1])]]
      refine ih G L l cnt ?_
      refine ⟨hinv.hdec, hinv.hLupp, hinv.hGupp, hinv.hlle, hinv.hlroot,
        by have := hinv.hcl; omega, hinv.hrootI, hinv.haccI, hinv.hwI,
        hinv.hacc, hinv.hw, hinv.hclosed, ?_⟩
      intro k hk hcf hle
      by_cases hrc : rootF L k = c
      · exfalso
        have := hroots k
        rw [hrc] at this
        exact h1 this
      · exact hinv.hconf k hk hcf (by omega)


theorem gowOuter_inv (A : ℕ → IRel) (W : ℕ → Bool) :
    ∀ (len i : ℕ) (G : ℕ → RefGrp) (L : ℕ → ℕ) (cnt : ℕ),
    OuterInv A W i G L →
    OuterInv A W (i + len) (gowOuter G L cnt (List.range' i len)).1
      (gowOuter G L cnt (List.range' i len)).2.1 ∧
    (∀ m, ((gowOuter G L cnt (List.range' i len)).1 m).refIdx = (G m).refIdx) := by
  intro len
  induction len with
  | zero =>
    intro i G L cnt hinv
    simp only [List.range'_zero, gowOuter]
    exact ⟨hinv, fun m => by simp⟩
  | succ len ih =>
    intro i G L cnt hinv
    rw [List.range'_succ]
    have hLi : L i = i := hinv.hLupp i (le_refl i)
    have hGup1 : ∀ m, (Function.update G i { G i with nRef := 1 } m).access
        = (G m).access ∧ (Function.update G i { G i with nRef := 1 } m).write
        = (G m).write ∧ (Function.update G i { G i with nRef := 1 } m).refIdx
        = (G m).refIdx := by
      intro m
      by_cases hm : m = i
      · subst hm; simp
      · rw [Function.update_noteq hm]
        exact ⟨rfl, rfl, rfl⟩
    have hsinv : ScanInv A W i i (Function.update G i { G i with nRef := 1 }) L i := by
      refine ⟨hinv.hdec, fun m hm => hinv.hLupp m (by omega), ?_,
        le_refl i, hLi, le_refl i, rootF_fix L i hLi, ?_, ?_, ?_, ?_, ?_, ?_⟩
      · intro m hm
        rw [(hGup1 m).1, (hGup1 m).2.1]
        exact hinv.hGupp m (by omega)
      · rw [(hGup1 i).1]
        rw [(hinv.hGupp i (le_refl i)).1]
      · intro hw
        rw [(hGup1 i).2.1, (hinv.hGupp i (le_refl i)).2]
        exact hw
      · intro k hk
        rw [(hGup1 (rootF L k)).1]
        exact hinv.hacc k hk
      · intro k hk hwk
        rw [(hGup1 (rootF L k)).2.1]
        exact hinv.hw k hk hwk
      · exact hinv.hclosed
      · intro k hk _ hle
        have := rootF_le L hinv.hdec k
        omega
    have hscan := gowScan_inv A W i i (Function.update G i { G i with nRef := 1 })
      L i cnt hsinv
    set r := gowScan (Function.update G i { G i with nRef := 1 }) L i cnt
      (List.range i).reverse with hr
    obtain ⟨inv2, href2⟩ := hscan
    have hstep : gowOuter G L cnt (i :: List.range' (i + 1) len)
        = gowOuter r.1 (Function.update r.2.1 i r.2.2.1) r.2.2.2
            (List.range' (i + 1) len) := by
      simp only [gowOuter]
    rw [hstep]
    have hdec2 : ∀ m, r.2.1 m ≤ m := inv2.hdec
    have hl2i : r.2.2.1 ≤ i := inv2.hlle
    have hdec3 : ∀ m, Function.update r.2.1 i r.2.2.1 m ≤ m :=
      hdec_update r.2.1 hdec2 i r.2.2.1 hl2i
    have hagree : ∀ k, k < i → rootF (Function.update r.2.1 i r.2.2.1) k
        = rootF r.2.1 k := by
      intro k hk
      exact rootF_congr_below r.2.1 (Function.update r.2.1 i r.2.2.1) hdec2 hdec3 k
        (fun m hm => Function.update_noteq (by omega) _ _)
    have hrootI3 : rootF (Function.update r.2.1 i r.2.2.1) i = r.2.2.1 := by
      by_cases hl : r.2.2.1 = i
      · rw [rootF_fix _ i (by rw [Function.update_same]; exact hl), hl]
      · have hupd : Function.update r.2.1 i r.2.2.1 i = r.2.2.1 :=
          Function.update_same _ _ _
        rw [rootF_step _ hdec3 i (by rw [hupd]; exact hl), hupd]
        rw [rootF_congr_below r.2.1 (Function.update r.2.1 i r.2.2.1) hdec2 hdec3
          r.2.2.1 (fun m hm => Function.update_noteq (by omega) _ _)]
        exact rootF_fix _ _ inv2.hlroot
    have hinv3 : OuterInv A W (i + 1) r.1 (Function.update r.2.1 i r.2.2.1) := by
      refine ⟨hdec3, ?_, ?_, ?_, ?_, ?_⟩
      · intro m hm
        rw [Function.update_noteq (by omega)]
        exact inv2.hLupp m (by omega)
      · intro m hm
        exact inv2.hGupp m (by omega)
      · intro k hk
        by_cases hki : k = i
        · subst hki
          rw [hrootI3]
          exact inv2.haccI
        · rw [hagree k (by omega)]
          exact inv2.hacc k (by omega)
      · intro k hk hwk
        by_cases hki : k = i
        · subst hki
          rw [hrootI3]
          exact inv2.hwI hwk
        · rw [hagree k (by omega)]
          exact inv2.hw k (by omega) hwk
      · intro j k hj hk hcf
        by_cases hji : j = i
        · by_cases hki : k = i
          · rw [hji, hki]
          · subst hji
            rw [hrootI3, hagree k (by omega)]
            exact (inv2.hconf k (by omega) hcf (by omega)).symm
        · by_cases hki : k = i
          · subst hki
            rw [hrootI3, hagree j (by omega)]
            exact inv2.hconf j (by omega) (conf_symm A W j k hcf) (by omega)
          · rw [hagree j (by omega), hagree k (by omega)]
            exact inv2.hclosed j k (by omega) (by omega) hcf
    have hrec := ih (i + 1) r.1 (Function.update r.2.1 i r.2.2.1) r.2.2.2 hinv3
    rw [show i + (len + 1) = (i + 1) + len from by omega]
    refine ⟨hrec.1, ?_⟩
    intro m
    rw [hrec.2 m, href2 m, (hGup1 m).2.2]

theorem group_overlapping_writes_inv (n : ℕ) (G : ℕ → RefGrp) :
    OuterInv (fun k => (G k).access) (fun k => (G k).write) n
      (group_overlapping_writes n G).1 (group_overlapping_writes n G).2.1 ∧
    (∀ m, ((group_overlapping_writes n G).1 m).refIdx = (G m).refIdx) := by
  have h0 : OuterInv (fun k => (G k).access) (fun k => (G k).write) 0 G id := by
    refine ⟨fun m => le_refl m, fun m _ => rfl, fun m _ => ⟨rfl, rfl⟩, ?_, ?_, ?_⟩
    · intro k hk; omega
    · intro k hk; omega
    · intro j k hj hk; omega
  have := gowOuter_inv (fun k => (G k).access) (fun k => (G k).write) n 0 G id 0 h0
  rw [← List.range_eq_range'] at this
  simpa only [group_overlapping_writes, Nat.zero_add] using this


theorem compute_group_shared_bound_fields (O : RelOracles) (nIdx : ℕ)
    (g : RefGrp) :
    (compute_group_shared_bound O nIdx g).refIdx = g.refIdx ∧
    (compute_group_shared_bound O nIdx g).access = g.access ∧
    (compute_group_shared_bound O nIdx g).write = g.write := by
  unfold compute_group_shared_bound
  match can_tile_for_shared_memory O nIdx g.access with
  | some bl => exact ⟨rfl, rfl, rfl⟩
  | none => exact ⟨rfl, rfl, rfl⟩

theorem sharedPass_refIdx (O : RelOracles) (nIdx : ℕ) (L : ℕ → ℕ) :
    ∀ (is : List ℕ) (G : ℕ → RefGrp) (m : ℕ),
    ((is.foldl (fun G2 i => if L i = i then
        Function.update G2 i (compute_group_shared_bound O nIdx (G2 i))
      else G2) G) m).refIdx = (G m).refIdx := by
  intro is
  induction is with
  | nil => intro G m; rfl
  | cons i is ih =>
    intro G m
    rw [List.foldl_cons]
    by_cases hi : L i = i
    · rw [if_pos hi, ih]
      by_cases hm : m = i
      · subst hm
        rw [Function.update_same]
        exact (compute_group_shared_bound_fields O nIdx (G m)).1
      · rw [Function.update_noteq hm]
    · rw [if_neg hi, ih]

theorem gcsmtMergeG_refIdx (G : ℕ → RefGrp) (l j : ℕ) (sb : List CBound)
    (m : ℕ) : (gcsmtMergeG G l j sb m).refIdx = (G m).refIdx := by
  unfold gcsmtMergeG
  by_cases hm : m = j
  · subst hm; simp
  · rw [Function.update_noteq hm]

theorem gcsmtScan_inv (O : RelOracles) (nIdx : ℕ) :
    ∀ (c : ℕ) (G : ℕ → RefGrp) (L : ℕ → ℕ) (l cnt : ℕ),
    (∀ m, L m ≤ m) → L l = l → c ≤ l →
    ((∀ m, (gcsmtScan O nIdx G L l cnt ((List.range c).reverse)).2.1 m ≤ m) ∧
     (gcsmtScan O nIdx G L l cnt ((List.range c).reverse)).2.1
       (gcsmtScan O nIdx G L l cnt ((List.range c).reverse)).2.2.1 =
       (gcsmtScan O nIdx G L l cnt ((List.range c).reverse)).2.2.1 ∧
     (∀ j k, rootF L j = rootF L k →
       rootF (gcsmtScan O nIdx G L l cnt ((List.range c).reverse)).2.1 j =
       rootF (gcsmtScan O nIdx G L l cnt ((List.range c).reverse)).2.1 k) ∧
     (∀ m, ((gcsmtScan O nIdx G L l cnt ((List.range c).reverse)).1 m).refIdx
       = (G m).refIdx)) := by
  intro c
  induction c with
  | zero =>
    intro G L l cnt hdec hl hcl
    simp only [List.range_zero, List.reverse_nil, gcsmtScan]
    exact ⟨hdec, hl, fun j k h => h, fun m => by simp⟩
  | succ c ih =>
    intro G L l cnt hdec hl hcl
    rw [show (List.range (c + 1)).reverse = c :: (List.range c).reverse by
      rw [List.range_succ]; simp]
    by_cases h1 : L c = c
    · by_cases h2 : (G c).sharedBound = none
      · rw [show gcsmtScan O nIdx G L l cnt (c :: (List.range c).reverse)
            = gcsmtScan O nIdx G L l cnt ((List.range c).reverse) by
          simp only [gcsmtScan]
          rw [if_neg (by simp [h1]), if_pos h2]]
        exact ih G L l cnt hdec hl (by omega)
      · by_cases h3 : (G l).access ∩ (G c).access = ∅
        · rw [show gcsmtScan O nIdx G L l cnt (c :: (List.range c).reverse)
              = gcsmtScan O nIdx G L l cnt ((List.range c).reverse) by
            simp only [gcsmtScan]
            rw [if_neg (by simp [h1]), if_neg h2, if_pos h3]]
          exact ih G L l cnt hdec hl (by omega)
        · match hct : can_tile_for_shared_memory O nIdx
              ((G l).access ∪ (G c).access) with
          | none =>
            rw [show gcsmtScan O nIdx G L l cnt (c :: (List.range c).reverse)
                = gcsmtScan O nIdx G L l cnt ((List.range c).reverse) by
              simp only [gcsmtScan]
              rw [if_neg (by simp [h1]), if_neg h2, if_neg h3, hct]]
            exact ih G L l cnt hdec hl (by omega)
          | some sb =>
            rw [show gcsmtScan O nIdx G L l cnt (c :: (List.range c).reverse)
                = gcsmtScan O nIdx (gcsmtMergeG G l c sb)
                    (Function.update L l c) c (cnt + 1)
                    ((List.range c).reverse) by
              simp only [gcsmtScan]
              rw [if_neg (by simp [h1]), if_neg h2, if_neg h3, hct]]
            have hcl' : c < l := by omega
            have hdec' := hdec_update L hdec l c (by omega)
            have hl' : Function.update L l c c = c := by
              rw [Function.update_noteq (by omega)]
              exact h1
            have hru := rootF_update_merge L hdec l c hl h1 hcl'
            have := ih (gcsmtMergeG G l c sb) (Function.update L l c) c
              (cnt + 1) hdec' hl' (le_refl c)
            refine ⟨this.1, this.2.1, ?_, ?_⟩
            · intro j k hjk
              refine this.2.2.1 j k ?_
              rw [hru j, hru k, hjk]
            · intro m
              rw [this.2.2.2 m, gcsmtMergeG_refIdx]
    · rw [show gcsmtScan O nIdx G L l cnt (c :: (List.range c).reverse)
          = gcsmtScan O nIdx G L l cnt ((List.range c).reverse) by
        simp only [gcsmtScan]
        rw [if_pos (by simp [h1])]]
      exact ih G L l cnt hdec hl (by omega)

theorem gcsmtOuter_inv (O : RelOracles) (nIdx : ℕ) :
    ∀ (is : List ℕ) (G : ℕ → RefGrp) (L : ℕ → ℕ) (ng : ℕ),
    (∀ m, L m ≤ m) →
    ((∀ m, (gcsmtOuter O nIdx G L ng is).2.1 m ≤ m) ∧
     (∀ j k, rootF L j = rootF L k →
       rootF (gcsmtOuter O nIdx G L ng is).2.1 j =
       rootF (gcsmtOuter O nIdx G L ng is).2.1 k) ∧
     (∀ m, ((gcsmtOuter O nIdx G L ng is).1 m).refIdx = (G m).refIdx)) := by
  intro is
  induction is with
  | nil =>
    intro G L ng hdec
    exact ⟨hdec, fun j k h => h, fun m => rfl⟩
  | cons i is ih =>
    intro G L ng hdec
    by_cases h0 : ng ≤ 1
    · rw [show gcsmtOuter O nIdx G L ng (i :: is) = (G, L, ng) by
        simp only [gcsmtOuter]
        rw [if_pos h0]]
      exact ⟨hdec, fun j k h => h, fun m => rfl⟩
    · by_cases h1 : L i = i
      · by_cases h2 : (G i).sharedBound = none
        · rw [show gcsmtOuter O nIdx G L ng (i :: is)
              = gcsmtOuter O nIdx G L ng is by
            simp only [gcsmtOuter]
            rw [if_neg h0, if_neg (by simp [h1]), if_pos h2]]
          exact ih G L ng hdec
        · rw [show gcsmtOuter O nIdx G L ng (i :: is)
              = gcsmtOuter O nIdx
                  (gcsmtScan O nIdx G L i 0 (List.range i).reverse).1
                  (gcsmtScan O nIdx G L i 0 (List.range i).reverse).2.1
                  (ng - (gcsmtScan O nIdx G L i 0 (List.range i).reverse).2.2.2)
                  is by
            simp only [gcsmtOuter]
            rw [if_neg h0, if_neg (by simp [h1]), if_neg h2]]
          have hscan := gcsmtScan_inv O nIdx i G L i 0 hdec h1 (le_refl i)
          have hrec := ih (gcsmtScan O nIdx G L i 0 (List.range i).reverse).1
            (gcsmtScan O nIdx G L i 0 (List.range i).reverse).2.1
            (ng - (gcsmtScan O nIdx G L i 0 (List.range i).reverse).2.2.2)
            hscan.1
          refine ⟨hrec.1, ?_, ?_⟩
          · intro j k hjk
            exact hrec.2.1 j k (hscan.2.2.1 j k hjk)
          · intro m
            rw [hrec.2.2 m, hscan.2.2.2 m]
      · rw [show gcsmtOuter O nIdx G L ng (i :: is)
            = gcsmtOuter O nIdx G L ng is by
          simp only [gcsmtOuter]
          rw [if_neg h0, if_pos (by simp [h1])]]
        exact ih G L ng hdec


theorem countRoots_succ (L : ℕ → ℕ) (s : ℕ) :
    countRoots L (s + 1) = countRoots L s + (if L s = s then 1 else 0) := by
  unfold countRoots
  rw [List.range_succ, List.filter_append]
  by_cases h : L s = s
  · simp [h]
  · simp [h]

theorem extract_inner_untouched (G : ℕ → RefGrp) (L : ℕ → ℕ) (i v : ℕ) :
    ∀ (js : List ℕ) (a : ℕ → Option ℕ) (r : ℕ),
    (∀ k, k ∈ js → L k = i → (G k).refIdx ≠ r) →
    (js.foldl (fun a2 k => if L k = i then
        Function.update a2 (G k).refIdx (some v) else a2) a) r = a r := by
  intro js
  induction js with
  | nil => intro a r _; rfl
  | cons j js ih =>
    intro a r hne
    rw [List.foldl_cons]
    by_cases hj : L j = i
    · rw [if_pos hj, ih _ r (fun k hk => hne k (List.mem_cons_of_mem j hk)),
        Function.update_noteq]
      exact fun h => hne j (List.mem_cons_self j js) hj (by rw [h])
    · rw [if_neg hj]
      exact ih _ r (fun k hk => hne k (List.mem_cons_of_mem j hk))

theorem extract_inner_sets (G : ℕ → RefGrp) (L : ℕ → ℕ) (i v : ℕ) :
    ∀ (js : List ℕ) (a : ℕ → Option ℕ) (k : ℕ), js.Nodup → k ∈ js → L k = i →
    (∀ k2, k2 ∈ js → k2 ≠ k → L k2 = i → (G k2).refIdx ≠ (G k).refIdx) →
    (js.foldl (fun a2 k2 => if L k2 = i then
        Function.update a2 (G k2).refIdx (some v) else a2) a) ((G k).refIdx)
      = some v := by
  intro js
  induction js with
  | nil => intro a k _ hk; exact absurd hk (List.not_mem_nil k)
  | cons j js ih =>
    intro a k hnd hk hLk hinj
    rw [List.foldl_cons]
    rcases List.mem_cons.mp hk with hkj | hkm
    · rw [← hkj, if_pos hLk]
      rw [extract_inner_untouched G L i v js _ ((G k).refIdx) ?_]
      · exact Function.update_same _ _ _
      · intro k2 hk2 hLk2
        have hne : k2 ≠ k := by
          intro he
          rw [← hkj] at hnd
          rw [he] at hk2
          exact (List.nodup_cons.mp hnd).1 hk2
        exact hinj k2 (by rw [← hkj]; exact List.mem_cons_of_mem k hk2) hne hLk2
    · have hrec := ih (if L j = i then
          Function.update a (G j).refIdx (some v) else a) k
        (List.nodup_cons.mp hnd).2 hkm hLk
        (fun k2 hk2 => hinj k2 (List.mem_cons_of_mem j hk2))
      by_cases hj : L j = i
      · rw [if_pos hj] at hrec ⊢
        exact hrec
      · rw [if_neg hj] at hrec ⊢
        exact hrec

theorem extract_outer (n : ℕ) (G : ℕ → RefGrp) (L : ℕ → ℕ)
    (hroot : ∀ k, k < n → L (L k) = L k ∧ L k ≤ k)
    (hinj : ∀ a b, a < n → b < n → a ≠ b → (G a).refIdx ≠ (G b).refIdx) :
    ∀ (len s : ℕ) (a0 : ℕ → Option ℕ) (j0 : ℕ), s + len = n →
    j0 = countRoots L s →
    (∀ k, k < n → L k < s → a0 ((G k).refIdx) = some (countRoots L (L k))) →
    (∀ k, k < n → s ≤ L k → a0 ((G k).refIdx) = none) →
    (∀ k, k < n →
      ((List.range' s len).foldl
        (fun st i => if L i = i then
          ((List.range' i (n - i)).foldl
            (fun a k2 => if L k2 = i then
              Function.update a (G k2).refIdx (some st.2) else a) st.1,
           st.2 + 1)
        else st) (a0, j0)).1 ((G k).refIdx) = some (countRoots L (L k))) := by
  intro len
  induction len with
  | zero =>
    intro s a0 j0 hs hj0 hdone _ k hk
    exact hdone k hk (by have := (hroot k hk).2; omega)
  | succ len ih =>
    intro s a0 j0 hs hj0 hdone hnone k hk
    rw [List.range'_succ, List.foldl_cons]
    by_cases hr : L s = s
    · rw [if_pos hr]
      refine ih (s + 1)
        ((List.range' s (n - s)).foldl
          (fun a k2 => if L k2 = s then
            Function.update a (G k2).refIdx (some j0) else a) a0)
        (j0 + 1) (by omega) ?_ ?_ ?_ k hk
      · rw [hj0, countRoots_succ, if_pos hr]
      · intro k2 hk2 hLk2
        by_cases hlt : L k2 < s
        · rw [extract_inner_untouched G L s j0 _ _ _ ?_]
          · exact hdone k2 hk2 hlt
          · intro k3 hk3 hLk3
            refine hinj k3 k2 ?_ hk2 ?_
            · rcases List.mem_range'_1.mp hk3 with ⟨h1, h2⟩
              omega
            · intro he
              rw [he] at hLk3
              omega
        · have hLs : L k2 = s := by omega
          rw [extract_inner_sets G L s j0 _ _ k2 (List.nodup_range' _ _) ?_ hLs ?_]
          · rw [hLs, hj0]
          · rw [List.mem_range'_1]
            have := (hroot k2 hk2).2
            omega
          · intro k3 hk3 hne hLk3
            refine hinj k3 k2 ?_ hk2 hne
            rcases List.mem_range'_1.mp hk3 with ⟨h1, h2⟩
            omega
      · intro k2 hk2 hge
        rw [extract_inner_untouched G L s j0 _ _ _ ?_]
        · exact hnone k2 hk2 (by omega)
        · intro k3 hk3 hLk3
          refine hinj k3 k2 ?_ hk2 ?_
          · rcases List.mem_range'_1.mp hk3 with ⟨h1, h2⟩
            omega
          · intro he
            rw [he] at hLk3
            omega
    · rw [if_neg hr]
      refine ih (s + 1) a0 j0 (by omega) ?_ ?_ ?_ k hk
      · rw [hj0, countRoots_succ, if_neg hr]
        omega
      · intro k2 hk2 hlt
        by_cases hlt2 : L k2 < s
        · exact hdone k2 hk2 hlt2
        · exfalso
          have hLs : L k2 = s := by omega
          have := (hroot k2 hk2).1
          rw [hLs] at this
          exact hr this
      · intro k2 hk2 hge
        by_cases hgt : s + 1 ≤ L k2
        · exact hnone k2 hk2 (by omega)
        · exfalso
          have hLs : L k2 = s := by omega
          have := (hroot k2 hk2).1
          rw [hLs] at this
          exact hr this

theorem extractAssign_spec (n : ℕ) (G : ℕ → RefGrp) (L : ℕ → ℕ)
    (hroot : ∀ k, k < n → L (L k) = L k ∧ L k ≤ k)
    (hinj : ∀ a b, a < n → b < n → a ≠ b → (G a).refIdx ≠ (G b).refIdx) :
    ∀ k, k < n → (extractAssign n G L).1 ((G k).refIdx)
      = some (countRoots L (L k)) := by
  intro k hk
  have h := extract_outer n G L hroot hinj n 0 (fun _ => none) 0
    (by omega) rfl (fun k2 _ h2 => by omega) (fun k2 _ _ => rfl) k hk
  rw [extractAssign, List.range_eq_range']
  exact h


theorem populate_refIdx_lb (sched : IRel) :
    ∀ (refs : List ARef) (i : ℕ) (g : RefGrp),
    g ∈ populate_array_references sched i refs → i ≤ g.refIdx := by
  intro refs
  induction refs with
  | nil => intro i g hg; exact absurd hg (List.not_mem_nil g)
  | cons r rs ih =>
    intro i g hg
    simp only [populate_array_references] at hg
    by_cases he : applyDomainRel sched r.access = ∅
    · rw [if_pos he] at hg
      have := ih (i + 1) g hg
      omega
    · rw [if_neg he] at hg
      rcases List.mem_cons.mp hg with h | h
      · rw [h]
      · have := ih (i + 1) g h
        omega

theorem populate_pairwise (sched : IRel) :
    ∀ (refs : List ARef) (i : ℕ),
    (populate_array_references sched i refs).Pairwise
      (fun g h => g.refIdx < h.refIdx) := by
  intro refs
  induction refs with
  | nil => intro i; exact List.Pairwise.nil
  | cons r rs ih =>
    intro i
    simp only [populate_array_references]
    by_cases he : applyDomainRel sched r.access = ∅
    · rw [if_pos he]
      exact ih (i + 1)
    · rw [if_neg he]
      refine List.Pairwise.cons ?_ (ih (i + 1))
      intro g hg
      have := populate_refIdx_lb sched rs (i + 1) g hg
      show i < g.refIdx
      omega

theorem populate_mem (sched : IRel) :
    ∀ (refs : List ARef) (i t : ℕ) (ht : t < refs.length),
    applyDomainRel sched (refs.get ⟨t, ht⟩).access ≠ ∅ →
    ∃ k, ∃ hk : k < (populate_array_references sched i refs).length,
      ((populate_array_references sched i refs).get ⟨k, hk⟩).refIdx = i + t ∧
      ((populate_array_references sched i refs).get ⟨k, hk⟩).access
        = applyDomainRel sched (refs.get ⟨t, ht⟩).access ∧
      ((populate_array_references sched i refs).get ⟨k, hk⟩).write
        = (refs.get ⟨t, ht⟩).write := by
  intro refs
  induction refs with
  | nil =>
    intro i t ht
    exact absurd ht (by simp)
  | cons r rs ih =>
    intro i t ht hne
    match t with
    | 0 =>
      have hget : (r :: rs).get ⟨0, ht⟩ = r := rfl
      rw [hget] at hne ⊢
      have hpop : populate_array_references sched i (r :: rs)
          = { refIdx := i, access := applyDomainRel sched r.access, write := r.write, nRef := 0, sharedBound := none, privateBound := none } :: populate_array_references sched (i + 1) rs := by
        simp only [populate_array_references]
        rw [if_neg hne]
      rw [hpop]
      refine ⟨0, by simp, ?_, ?_, ?_⟩
      · show ({ refIdx := i, access := applyDomainRel sched r.access, write := r.write, nRef := 0, sharedBound := none, privateBound := none } : RefGrp).refIdx = i + 0
        simp
      · show ({ refIdx := i, access := applyDomainRel sched r.access, write := r.write, nRef := 0, sharedBound := none, privateBound := none } : RefGrp).access = applyDomainRel sched r.access
        rfl
      · show ({ refIdx := i, access := applyDomainRel sched r.access, write := r.write, nRef := 0, sharedBound := none, privateBound := none } : RefGrp).write = r.write
        rfl
    | Nat.succ t2 =>
      have ht2 : t2 < rs.length := by
        simp only [List.length_cons] at ht
        omega
      have hget : (r :: rs).get ⟨Nat.succ t2, ht⟩ = rs.get ⟨t2, ht2⟩ := rfl
      rw [hget] at hne ⊢
      obtain ⟨k, hk, h1, h2, h3⟩ := ih (i + 1) t2 ht2 hne
      by_cases he : applyDomainRel sched r.access = ∅
      · have hpop : populate_array_references sched i (r :: rs)
            = populate_array_references sched (i + 1) rs := by
          simp only [populate_array_references]
          rw [if_pos he]
        rw [hpop]
        refine ⟨k, hk, ?_, h2, h3⟩
        rw [h1]
        omega
      · have hpop : populate_array_references sched i (r :: rs)
            = { refIdx := i, access := applyDomainRel sched r.access, write := r.write, nRef := 0, sharedBound := none, privateBound := none } :: populate_array_references sched (i + 1) rs := by
          simp only [populate_array_references]
          rw [if_neg he]
        rw [hpop]
        have hk2 : k + 1 < ({ refIdx := i, access := applyDomainRel sched r.access, write := r.write, nRef := 0, sharedBound := none, privateBound := none } :: populate_array_references sched (i + 1) rs).length := by
          simp only [List.length_cons]
          omega
        have hgetc : ({ refIdx := i, access := applyDomainRel sched r.access, write := r.write, nRef := 0, sharedBound := none, privateBound := none } :: populate_array_references sched (i + 1) rs).get
            ⟨k + 1, hk2⟩ = (populate_array_references sched (i + 1) rs).get ⟨k, hk⟩ := rfl
        refine ⟨k + 1, hk2, ?_, ?_, ?_⟩
        · rw [hgetc, h1]
          omega
        · rw [hgetc]
          exact h2
        · rw [hgetc]
          exact h3

theorem compressLeader_spec (n : ℕ) (L : ℕ → ℕ) (hL : ∀ m, L m ≤ m) :
    (∀ m, compressLeader n L m ≤ m) ∧
    (∀ k, k < n → compressLeader n L k = rootF L k) := by
  have hlow : ∀ k, k < 2 → L k = rootF L k := by
    intro k hk
    match k with
    | 0 =>
      rw [rootF_zero L hL]
      have := hL 0
      omega
    | 1 => exact rootF_one L hL
  have h := compress_fold L hL (n - 2) 2 L hL (fun k => rfl)
    hlow (fun k _ => rfl)
  unfold compressLeader
  rw [drop2_range]
  refine ⟨h.1, ?_⟩
  intro k hk
  exact h.2 k (by omega)


theorem G0_get (gs : List RefGrp) (k : ℕ) (hk : k < gs.length) :
    G0 gs k = gs.get ⟨k, hk⟩ := by
  unfold G0
  exact List.getD_eq_get gs emptyGrp hk

theorem popGroups_mem (sched : IRel) (refs : List ARef) (t : ℕ)
    (ht : t < refs.length)
    (hne : applyDomainRel sched (refs.get ⟨t, ht⟩).access ≠ ∅) :
    ∃ k, k < (popGroups sched refs).length ∧
      (G0 (popGroups sched refs) k).refIdx = t ∧
      (G0 (popGroups sched refs) k).access
        = applyDomainRel sched (refs.get ⟨t, ht⟩).access ∧
      (G0 (popGroups sched refs) k).write = (refs.get ⟨t, ht⟩).write := by
  obtain ⟨k, hk, h1, h2, h3⟩ := populate_mem sched refs 0 t ht hne
  refine ⟨k, hk, ?_, ?_, ?_⟩
  · show (G0 (populate_array_references sched 0 refs) k).refIdx = t
    rw [G0_get _ k hk, h1]
    omega
  · show (G0 (populate_array_references sched 0 refs) k).access
      = applyDomainRel sched (refs.get ⟨t, ht⟩).access
    rw [G0_get _ k hk, h2]
  · show (G0 (populate_array_references sched 0 refs) k).write
      = (refs.get ⟨t, ht⟩).write
    rw [G0_get _ k hk, h3]

theorem popGroups_refIdx_inj (sched : IRel) (refs : List ARef) :
    ∀ a b, a < (popGroups sched refs).length →
      b < (popGroups sched refs).length → a ≠ b →
      (G0 (popGroups sched refs) a).refIdx
        ≠ (G0 (popGroups sched refs) b).refIdx := by
  intro a b ha hb hne
  show (G0 (populate_array_references sched 0 refs) a).refIdx
    ≠ (G0 (populate_array_references sched 0 refs) b).refIdx
  have ha' : a < (populate_array_references sched 0 refs).length := ha
  have hb' : b < (populate_array_references sched 0 refs).length := hb
  rw [G0_get _ a ha', G0_get _ b hb']
  have hpw := List.pairwise_iff_get.mp (populate_pairwise sched refs 0)
  rcases Nat.lt_or_ge a b with hab | hab
  · have := hpw ⟨a, ha'⟩ ⟨b, hb'⟩ hab
    omega
  · have hba : b < a := by omega
    have := hpw ⟨b, hb'⟩ ⟨a, ha'⟩ hba
    omega

theorem grouping_refIdx_chain (O : RelOracles) (nIdx : ℕ) (sched : IRel)
    (refs : List ARef) (m : ℕ) :
    ((gcsmtStage O nIdx sched refs).1 m).refIdx
      = (G0 (popGroups sched refs) m).refIdx := by
  have h1 := (gcsmtOuter_inv O nIdx (List.range (popGroups sched refs).length)
    (sharedStage O nIdx sched refs) (gowStage sched refs).2.1
    (gowStage sched refs).2.2
    (group_overlapping_writes_inv (popGroups sched refs).length
      (G0 (popGroups sched refs))).1.hdec).2.2 m
  have h2 : ((sharedStage O nIdx sched refs) m).refIdx
      = ((gowStage sched refs).1 m).refIdx := by
    unfold sharedStage sharedPass
    exact sharedPass_refIdx O nIdx (gowStage sched refs).2.1
      (List.range (popGroups sched refs).length) (gowStage sched refs).1 m
  have h3 := (group_overlapping_writes_inv (popGroups sched refs).length
    (G0 (popGroups sched refs))).2 m
  unfold gcsmtStage
  rw [h1, h2]
  exact h3

theorem grouping_final_leaders (O : RelOracles) (nIdx : ℕ) (sched : IRel)
    (refs : List ARef) :
    (∀ m, (gcsmtStage O nIdx sched refs).2.1 m ≤ m) ∧
    (∀ j k, rootF (gowStage sched refs).2.1 j = rootF (gowStage sched refs).2.1 k →
      rootF (gcsmtStage O nIdx sched refs).2.1 j
        = rootF (gcsmtStage O nIdx sched refs).2.1 k) := by
  have h := gcsmtOuter_inv O nIdx (List.range (popGroups sched refs).length)
    (sharedStage O nIdx sched refs) (gowStage sched refs).2.1
    (gowStage sched refs).2.2
    (group_overlapping_writes_inv (popGroups sched refs).length
      (G0 (popGroups sched refs))).1.hdec
  exact ⟨h.1, h.2.1⟩

/-- C1: conflict-safety of grouping.  For any two references of the array
whose scheduled access relations intersect, at least one of which is a
write, the full grouping pass assigns both references the same final group
ordinal (and does assign one). -/
theorem conflict_safety_grouping (O : RelOracles) (nIdx : ℕ) (sched : IRel)
    (refs : List ARef) (i1 i2 : ℕ) (h1 : i1 < refs.length) (h2 : i2 < refs.length)
    (hw : (refs.get ⟨i1, h1⟩).write = true ∨ (refs.get ⟨i2, h2⟩).write = true)
    (hov : ((applyDomainRel sched (refs.get ⟨i1, h1⟩).access) ∩
            (applyDomainRel sched (refs.get ⟨i2, h2⟩).access)).Nonempty) :
    group_array_references O nIdx sched refs i1
      = group_array_references O nIdx sched refs i2 ∧
    (group_array_references O nIdx sched refs i1).isSome := by
  have hne1 : applyDomainRel sched (refs.get ⟨i1, h1⟩).access ≠ ∅ := by
    obtain ⟨x, hx⟩ := hov
    rw [Finset.mem_inter] at hx
    intro h
    rw [h] at hx
    exact absurd hx.1 (Finset.not_mem_empty x)
  have hne2 : applyDomainRel sched (refs.get ⟨i2, h2⟩).access ≠ ∅ := by
    obtain ⟨x, hx⟩ := hov
    rw [Finset.mem_inter] at hx
    intro h
    rw [h] at hx
    exact absurd hx.2 (Finset.not_mem_empty x)
  obtain ⟨k1, hk1, e1r, e1a, e1w⟩ := popGroups_mem sched refs i1 h1 hne1
  obtain ⟨k2, hk2, e2r, e2a, e2w⟩ := popGroups_mem sched refs i2 h2 hne2
  have hgow := group_overlapping_writes_inv (popGroups sched refs).length
    (G0 (popGroups sched refs))
  have hcf : Conf (fun k => (G0 (popGroups sched refs) k).access)
      (fun k => (G0 (popGroups sched refs) k).write) k1 k2 := by
    constructor
    · show ((G0 (popGroups sched refs) k1).access
        ∩ (G0 (popGroups sched refs) k2).access).Nonempty
      rw [e1a, e2a]
      exact hov
    · rcases hw with h | h
      · left
        show (G0 (popGroups sched refs) k1).write = true
        rw [e1w]
        exact h
      · right
        show (G0 (popGroups sched refs) k2).write = true
        rw [e2w]
        exact h
  have hsame1 : rootF (gowStage sched refs).2.1 k1
      = rootF (gowStage sched refs).2.1 k2 :=
    hgow.1.hclosed k1 k2 hk1 hk2 hcf
  have hfin := grouping_final_leaders O nIdx sched refs
  have hsame2 := hfin.2 k1 k2 hsame1
  have hdec2 := hfin.1
  have hcomp := compressLeader_spec (popGroups sched refs).length
    (gcsmtStage O nIdx sched refs).2.1 hdec2
  have hrootLc : ∀ k, k < (popGroups sched refs).length →
      compressLeader (popGroups sched refs).length
        (gcsmtStage O nIdx sched refs).2.1
        (compressLeader (popGroups sched refs).length
          (gcsmtStage O nIdx sched refs).2.1 k)
      = compressLeader (popGroups sched refs).length
        (gcsmtStage O nIdx sched refs).2.1 k ∧
      compressLeader (popGroups sched refs).length
        (gcsmtStage O nIdx sched refs).2.1 k ≤ k := by
    intro k hk
    have hle := rootF_le (gcsmtStage O nIdx sched refs).2.1 hdec2 k
    constructor
    · rw [hcomp.2 k hk, hcomp.2 (rootF (gcsmtStage O nIdx sched refs).2.1 k)
        (by omega)]
      exact rootF_fix _ _ (rootF_root (gcsmtStage O nIdx sched refs).2.1 hdec2 k)
    · rw [hcomp.2 k hk]
      exact hle
  have hinj : ∀ a b, a < (popGroups sched refs).length →
      b < (popGroups sched refs).length → a ≠ b →
      ((gcsmtStage O nIdx sched refs).1 a).refIdx
        ≠ ((gcsmtStage O nIdx sched refs).1 b).refIdx := by
    intro a b ha hb hne
    rw [grouping_refIdx_chain O nIdx sched refs a,
      grouping_refIdx_chain O nIdx sched refs b]
    exact popGroups_refIdx_inj sched refs a b ha hb hne
  have hspec := extractAssign_spec (popGroups sched refs).length
    (gcsmtStage O nIdx sched refs).1
    (compressLeader (popGroups sched refs).length
      (gcsmtStage O nIdx sched refs).2.1) hrootLc hinj
  have hs1 := hspec k1 hk1
  have hs2 := hspec k2 hk2
  have hi1 : ((gcsmtStage O nIdx sched refs).1 k1).refIdx = i1 := by
    rw [grouping_refIdx_chain O nIdx sched refs k1, e1r]
  have hi2 : ((gcsmtStage O nIdx sched refs).1 k2).refIdx = i2 := by
    rw [grouping_refIdx_chain O nIdx sched refs k2, e2r]
  rw [hi1] at hs1
  rw [hi2] at hs2
  have hLceq : compressLeader (popGroups sched refs).length
      (gcsmtStage O nIdx sched refs).2.1 k1
      = compressLeader (popGroups sched refs).length
        (gcsmtStage O nIdx sched refs).2.1 k2 := by
    rw [hcomp.2 k1 hk1, hcomp.2 k2 hk2]
    exact hsame2
  constructor
  · show (extractAssign (popGroups sched refs).length
      (gcsmtStage O nIdx sched refs).1
      (compressLeader (popGroups sched refs).length
        (gcsmtStage O nIdx sched refs).2.1)).1 i1
      = (extractAssign (popGroups sched refs).length
        (gcsmtStage O nIdx sched refs).1
        (compressLeader (popGroups sched refs).length
          (gcsmtStage O nIdx sched refs).2.1)).1 i2
    rw [hs1, hs2, hLceq]
  · show ((extractAssign (popGroups sched refs).length
      (gcsmtStage O nIdx sched refs).1
      (compressLeader (popGroups sched refs).length
        (gcsmtStage O nIdx sched refs).2.1)).1 i1).isSome
    rw [hs1]
    rfl

/-- Witness for `conflict_safety_grouping` (C1): the two overlapping
references of `c1refs` (one a write) receive the same group ordinal. -/
theorem conflict_safety_grouping_witness :
    group_array_references trivOracles 1 schedId c1refs 0
      = group_array_references trivOracles 1 schedId c1refs 1 ∧
    (group_array_references trivOracles 1 schedId c1refs 0).isSome :=
  conflict_safety_grouping trivOracles 1 schedId c1refs 0 1 (by decide)
    (by decide) (by decide) (by decide)

/-- C4 counterexample: after `group_overlapping_writes` on `c4refs`,
indices 0 and 1 are two distinct surviving leaders whose accumulated
access relations intersect while group 0 is a write group, so the
conflict-merge phase has not reached the fixed point the claim states. -/
theorem conflict_fixed_point_counterexample :
    (gowStage schedId c4refs).2.1 0 = 0 ∧
    (gowStage schedId c4refs).2.1 1 = 1 ∧
    (((gowStage schedId c4refs).1 0).access
      ∩ ((gowStage schedId c4refs).1 1).access).Nonempty ∧
    ((gowStage schedId c4refs).1 0).write = true ∧
    ((gowStage schedId c4refs).1 1).write = false := by
  decide

/-- C4 (amended): when the conflict-merge phase finishes, every pair of
references that conflicts directly (their scheduled access relations
intersect and at least one is a write) lies in the same leader's group;
the group-level statement about accumulated union relations fails (see the
counterexample), but no conflicting pair of references is ever split
across two surviving leaders. -/
theorem conflict_merge_same_leader (sched : IRel) (refs : List ARef)
    (i1 i2 : ℕ) (h1 : i1 < refs.length) (h2 : i2 < refs.length)
    (hw : (refs.get ⟨i1, h1⟩).write = true ∨ (refs.get ⟨i2, h2⟩).write = true)
    (hov : ((applyDomainRel sched (refs.get ⟨i1, h1⟩).access) ∩
            (applyDomainRel sched (refs.get ⟨i2, h2⟩).access)).Nonempty) :
    ∃ k1 k2, k1 < (popGroups sched refs).length ∧
      k2 < (popGroups sched refs).length ∧
      (G0 (popGroups sched refs) k1).refIdx = i1 ∧
      (G0 (popGroups sched refs) k2).refIdx = i2 ∧
      rootF (gowStage sched refs).2.1 k1 = rootF (gowStage sched refs).2.1 k2 := by
  have hne1 : applyDomainRel sched (refs.get ⟨i1, h1⟩).access ≠ ∅ := by
    obtain ⟨x, hx⟩ := hov
    rw [Finset.mem_inter] at hx
    intro h
    rw [h] at hx
    exact absurd hx.1 (Finset.not_mem_empty x)
  have hne2 : applyDomainRel sched (refs.get ⟨i2, h2⟩).access ≠ ∅ := by
    obtain ⟨x, hx⟩ := hov
    rw [Finset.mem_inter] at hx
    intro h
    rw [h] at hx
    exact absurd hx.2 (Finset.not_mem_empty x)
  obtain ⟨k1, hk1, e1r, e1a, e1w⟩ := popGroups_mem sched refs i1 h1 hne1
  obtain ⟨k2, hk2, e2r, e2a, e2w⟩ := popGroups_mem sched refs i2 h2 hne2
  have hgow := group_overlapping_writes_inv (popGroups sched refs).length
    (G0 (popGroups sched refs))
  have hcf : Conf (fun k => (G0 (popGroups sched refs) k).access)
      (fun k => (G0 (popGroups sched refs) k).write) k1 k2 := by
    constructor
    · show ((G0 (popGroups sched refs) k1).access
        ∩ (G0 (popGroups sched refs) k2).access).Nonempty
      rw [e1a, e2a]
      exact hov
    · rcases hw with h | h
      · left
        show (G0 (popGroups sched refs) k1).write = true
        rw [e1w]
        exact h
      · right
        show (G0 (popGroups sched refs) k2).write = true
        rw [e2w]
        exact h
  exact ⟨k1, k2, hk1, hk2, e1r, e2r, hgow.1.hclosed k1 k2 hk1 hk2 hcf⟩

/-- Witness for `conflict_merge_same_leader` (C4 amended), at the
conflicting pair of `c1refs`. -/
theorem conflict_merge_same_leader_witness :
    ∃ k1 k2, k1 < (popGroups schedId c1refs).length ∧
      k2 < (popGroups schedId c1refs).length ∧
      (G0 (popGroups schedId c1refs) k1).refIdx = 0 ∧
      (G0 (popGroups schedId c1refs) k2).refIdx = 1 ∧
      rootF (gowStage schedId c1refs).2.1 k1
        = rootF (gowStage schedId c1refs).2.1 k2 :=
  conflict_merge_same_leader schedId c1refs 0 1 (by decide) (by decide)
    (by decide) (by decide)


/-- C6: coalesced demotion.  For a group whose accumulated access relation
is injective (no reuse): if the group holds a shared bound and the access
is coalesced, the promotion pass drops the shared bound and changes
nothing else; in every other injective case the group is returned
unchanged; the private bound is never touched, so an injective group never
receives one. -/
theorem coalesced_demotion (O : RelOracles) (tiledSched sharedSched priv : IRel)
    (posT nIdx : ℕ) (grefs : List ARef) (g : RefGrp)
    (hinj : isInjectiveRel (group_access_relation grefs true true) = true) :
    ((g.sharedBound.isSome = true ∧
        access_is_coalesced tiledSched posT nIdx
          (group_access_relation grefs true true) = true) →
      check_private_group_access O tiledSched sharedSched priv posT nIdx grefs g
        = { g with sharedBound := none }) ∧
    (¬ (g.sharedBound.isSome = true ∧
        access_is_coalesced tiledSched posT nIdx
          (group_access_relation grefs true true) = true) →
      check_private_group_access O tiledSched sharedSched priv posT nIdx grefs g
        = g) ∧
    (check_private_group_access O tiledSched sharedSched priv posT nIdx grefs
        g).privateBound = g.privateBound := by
  refine ⟨?_, ?_, ?_⟩
  · rintro ⟨hs, hc⟩
    unfold check_private_group_access
    rw [if_pos hinj, if_pos (by rw [hs, hc]; rfl)]
  · intro hnc
    unfold check_private_group_access
    rw [if_pos hinj, if_neg ?_]
    intro hand
    rcases Bool.and_eq_true_iff.mp hand with ⟨hs, hc⟩
    exact hnc ⟨hs, hc⟩
  · unfold check_private_group_access
    rw [if_pos hinj]
    by_cases hb : (g.sharedBound.isSome &&
        access_is_coalesced tiledSched posT nIdx
          (group_access_relation grefs true true)) = true
    · rw [if_pos hb]
    · rw [if_neg hb]

/-- Witness for `coalesced_demotion` (C6): the identity access
`index = thread_id` is classified coalesced, and after promotion the group
holds no shared bound and no private bound. -/
theorem coalesced_demotion_witness :
    access_is_coalesced idAcc 0 1 (group_access_relation idRefs true true)
      = true ∧
    (check_private_group_access trivOracles idAcc idAcc idAcc 0 1 idRefs
      c6grp).sharedBound = none ∧
    (check_private_group_access trivOracles idAcc idAcc idAcc 0 1 idRefs
      c6grp).privateBound = none := by
  refine ⟨by decide, ?_, ?_⟩
  · rw [(coalesced_demotion trivOracles idAcc idAcc idAcc 0 1 idRefs c6grp
      (by decide)).1 ⟨by decide, by decide⟩]
  · rw [(coalesced_demotion trivOracles idAcc idAcc idAcc 0 1 idRefs c6grp
      (by decide)).2.2]
    decide

/-- C5: bijection promotion.  For a group whose accumulated access relation
has reuse (is not injective), the promotion pass composes the access with
the shared schedule and tests bijectivity of the resulting relation from
the (shared-tile, thread-wrap) coordinates to the array elements; the group
ends with a private bound exactly when that relation is bijective and the
Bound Solver succeeds on the relation restricted through the privatization
map.  The shared bound is never modified on this path. -/
theorem bijection_promotion (O : RelOracles) (tiledSched sharedSched priv : IRel)
    (posT nIdx : ℕ) (grefs : List ARef) (g : RefGrp)
    (hninj : isInjectiveRel (group_access_relation grefs true true) = false)
    (hpriv0 : g.privateBound = none) :
    ((check_private_group_access O tiledSched sharedSched priv posT nIdx grefs
        g).privateBound.isSome = true ↔
      (isBijectiveRel (applyDomainRel sharedSched
          (group_access_relation grefs true true)) = true ∧
       (can_tile_for_shared_memory O nIdx (applyDomainRel priv
          (applyDomainRel sharedSched
            (group_access_relation grefs true true)))).isSome = true)) ∧
    (check_private_group_access O tiledSched sharedSched priv posT nIdx grefs
        g).sharedBound = g.sharedBound := by
  unfold check_private_group_access
  rw [if_neg (by rw [hninj]; exact Bool.false_ne_true)]
  by_cases hbij : isBijectiveRel (applyDomainRel sharedSched
      (group_access_relation grefs true true)) = false
  · rw [if_pos hbij]
    constructor
    · rw [hpriv0]
      constructor
      · intro h
        exact absurd h (by simp)
      · rintro ⟨hb, _⟩
        rw [hbij] at hb
        exact absurd hb Bool.false_ne_true
    · rfl
  · rw [if_neg hbij]
    have hbij2 : isBijectiveRel (applyDomainRel sharedSched
        (group_access_relation grefs true true)) = true := by
      cases hb : isBijectiveRel (applyDomainRel sharedSched
          (group_access_relation grefs true true)) with
      | false => exact absurd hb hbij
      | true => rfl
    cases hct : can_tile_for_shared_memory O nIdx (applyDomainRel priv
        (applyDomainRel sharedSched (group_access_relation grefs true true))) with
    | some bl => exact ⟨⟨fun _ => ⟨hbij2, rfl⟩, fun _ => rfl⟩, rfl⟩
    | none =>
      refine ⟨⟨fun h => ?_, fun h => ?_⟩, rfl⟩
      · simp at h
      · rcases h with ⟨_, hs⟩
        simp at hs

/-- Witness for `bijection_promotion` (C5): an access with reuse whose
scheduled relation is a permutation (the identity) of the per-thread
space is promoted to a private bound. -/
theorem bijection_promotion_witness :
    (check_private_group_access promOracles c2sched c2shared c2priv 0 1 c2refs
      ⟨0, {([0, 0], [0]), ([0, 1], [0])}, false, 1, none, none⟩).privateBound.isSome
      = true :=
  (bijection_promotion promOracles c2sched c2shared c2priv 0 1 c2refs
    ⟨0, {([0, 0], [0]), ([0, 1], [0])}, false, 1, none, none⟩ (by decide)
    rfl).1.mpr ⟨by decide, by decide⟩

/-- C2 counterexample: a finalized group of the grouping pipeline that
holds a shared bound is given a private bound by the promotion pass while
its shared bound is left in place, so both are non-empty at once. -/
theorem tier_exclusivity_counterexample :
    ((check_private_group_access promOracles c2sched c2shared c2priv 0 1 c2refs
      ((gcsmtStage promOracles 1 c2sched c2refs).1 0)).sharedBound).isSome = true ∧
    ((check_private_group_access promOracles c2sched c2shared c2priv 0 1 c2refs
      ((gcsmtStage promOracles 1 c2sched c2refs).1 0)).privateBound).isSome = true := by
  decide

/-- C2 (amended): `private_bound` and `shared_bound` can be non-empty
simultaneously after promotion (see the counterexample); the tiers remain
exclusive only in the sense that the emitter consults `private_bound`
first: a group with a private bound is emitted at the private tier, the
shared tier requires an absent private bound, and the promotion pass never
creates a shared bound (a shared bound present after promotion was already
present before). -/
theorem tier_exclusivity_amended (O : RelOracles)
    (tiledSched sharedSched priv : IRel) (posT nIdx : ℕ) (grefs : List ARef)
    (g : RefGrp) :
    ((check_private_group_access O tiledSched sharedSched priv posT nIdx grefs
        g).sharedBound.isSome = true → g.sharedBound.isSome = true) ∧
    (∀ g2 : RefGrp, g2.privateBound.isSome = true →
      tierOf g2 = MemTier.privateTier) ∧
    (∀ g2 : RefGrp, tierOf g2 = MemTier.sharedTier →
      g2.privateBound = none ∧ g2.sharedBound.isSome = true) ∧
    (∀ g2 : RefGrp, tierOf g2 = MemTier.globalTier →
      g2.privateBound = none ∧ g2.sharedBound = none) := by
  refine ⟨?_, ?_, ?_, ?_⟩
  · intro h
    unfold check_private_group_access at h
    by_cases hinj : isInjectiveRel (group_access_relation grefs true true) = true
    · rw [if_pos hinj] at h
      by_cases hb : (g.sharedBound.isSome && access_is_coalesced tiledSched posT
          nIdx (group_access_relation grefs true true)) = true
      · rw [if_pos hb] at h
        exact absurd h (by simp)
      · rw [if_neg hb] at h
        exact h
    · rw [if_neg hinj] at h
      by_cases hbij : isBijectiveRel (applyDomainRel sharedSched
          (group_access_relation grefs true true)) = false
      · rw [if_pos hbij] at h
        exact h
      · rw [if_neg hbij] at h
        match hct : can_tile_for_shared_memory O nIdx (applyDomainRel priv
            (applyDomainRel sharedSched (group_access_relation grefs true true))) with
        | some bl =>
          rw [hct] at h
          exact h
        | none =>
          rw [hct] at h
          exact h
  · intro g2 h
    unfold tierOf
    rw [if_pos h]
  · intro g2 h
    unfold tierOf at h
    by_cases hp : g2.privateBound.isSome = true
    · rw [if_pos hp] at h
      exact absurd h (by decide)
    · rw [if_neg hp] at h
      by_cases hs : g2.sharedBound.isSome = true
      · exact ⟨Option.not_isSome_iff_eq_none.mp hp, hs⟩
      · rw [if_neg hs] at h
        exact absurd h (by decide)
  · intro g2 h
    unfold tierOf at h
    by_cases hp : g2.privateBound.isSome = true
    · rw [if_pos hp] at h
      exact absurd h (by decide)
    · rw [if_neg hp] at h
      by_cases hs : g2.sharedBound.isSome = true
      · rw [if_pos hs] at h
        exact absurd h (by decide)
      · exact ⟨Option.not_isSome_iff_eq_none.mp hp,
          Option.not_isSome_iff_eq_none.mp hs⟩

/-- Witness for `tier_exclusivity_amended` (C2): applied to the double
tagged group of the counterexample scenario, the emitter still selects the
private tier. -/
theorem tier_exclusivity_amended_witness :
    tierOf (check_private_group_access promOracles c2sched c2shared c2priv 0 1
      c2refs ((gcsmtStage promOracles 1 c2sched c2refs).1 0))
      = MemTier.privateTier :=
  (tier_exclusivity_amended promOracles c2sched c2shared c2priv 0 1 c2refs
    ((gcsmtStage promOracles 1 c2sched c2refs).1 0)).2.1
    (check_private_group_access promOracles c2sched c2shared c2priv 0 1 c2refs
      ((gcsmtStage promOracles 1 c2sched c2refs).1 0)) (by decide)

/-- C7: infeasible-bound fallback.  A failed shared-tile attempt leaves the
group with no shared bound at all (the failure is the value `none`, no
partial per-dimension bound survives), and a failed private-tile attempt
leaves the group with no private bound and its shared bound exactly as it
was. -/
theorem infeasible_bound_fallback (O : RelOracles)
    (tiledSched sharedSched priv : IRel) (posT nIdx : ℕ) (grefs : List ARef)
    (g : RefGrp)
    (hfail : can_tile_for_shared_memory O nIdx g.access = none)
    (hninj : isInjectiveRel (group_access_relation grefs true true) = false)
    (hpriv0 : g.privateBound = none)
    (hfailp : can_tile_for_shared_memory O nIdx (applyDomainRel priv
      (applyDomainRel sharedSched (group_access_relation grefs true true)))
      = none) :
    compute_group_shared_bound O nIdx g = { g with sharedBound := none } ∧
    (check_private_group_access O tiledSched sharedSched priv posT nIdx grefs
        g).privateBound = none ∧
    (check_private_group_access O tiledSched sharedSched priv posT nIdx grefs
        g).sharedBound = g.sharedBound := by
  refine ⟨?_, ?_, ?_⟩
  · unfold compute_group_shared_bound
    rw [hfail]
  · unfold check_private_group_access
    rw [if_neg (by rw [hninj]; exact Bool.false_ne_true)]
    by_cases hbij : isBijectiveRel (applyDomainRel sharedSched
        (group_access_relation grefs true true)) = false
    · rw [if_pos hbij]
      exact hpriv0
    · rw [if_neg hbij, hfailp]
  · unfold check_private_group_access
    rw [if_neg (by rw [hninj]; exact Bool.false_ne_true)]
    by_cases hbij : isBijectiveRel (applyDomainRel sharedSched
        (group_access_relation grefs true true)) = false
    · rw [if_pos hbij]
    · rw [if_neg hbij, hfailp]

/-- Witness for `infeasible_bound_fallback` (C7): with the always-failing
solver instantiation, the shared-tile attempt leaves `c7grp` global and a
failed private attempt on the reuse scenario leaves the shared bound in
place. -/
theorem infeasible_bound_fallback_witness :
    compute_group_shared_bound trivOracles 1 c7grp
      = { c7grp with sharedBound := none } ∧
    (check_private_group_access trivOracles c2sched c2shared c2priv 0 1 c2refs
      c7grp).privateBound = none ∧
    (check_private_group_access trivOracles c2sched c2shared c2priv 0 1 c2refs
      c7grp).sharedBound = c7grp.sharedBound :=
  infeasible_bound_fallback trivOracles c2sched c2shared c2priv 0 1 c2refs
    c7grp (by decide) (by decide) rfl (by decide)

/-- C10: for a zero-dimensional (scalar) array the per-dimension loop of
`can_tile_for_shared_memory` runs zero times, so the tiling test succeeds
vacuously with an empty bound list and `compute_group_shared_bound` always
installs a (trivial) shared bound: the Bound Solver's infeasibility outcome
cannot occur. -/
theorem scalar_always_shared (O : RelOracles) (g : RefGrp) :
    can_tile_for_shared_memory O 0 g.access = some [] ∧
    (compute_group_shared_bound O 0 g).sharedBound = some [] := by
  constructor
  · rfl
  · unfold compute_group_shared_bound
    rfl

theorem dotl_zero (l1 l2 : List ℤ) (h : ∀ a ∈ l1, a = 0) : dotl l1 l2 = 0 := by
  unfold dotl
  apply List.sum_eq_zero
  intro y hy
  obtain ⟨q, hq, rfl⟩ := List.mem_map.mp hy
  have := (List.of_mem_zip hq).1
  rw [h q.1 this]
  ring

theorem divInvolved_dotl (c : Constr) (h : divInvolved c = false) (e : List ℤ) :
    dotl c.dC e = 0 := by
  apply dotl_zero
  intro a ha
  unfold divInvolved at h
  rw [List.any_eq_false] at h
  have := h a ha
  simpa using this

theorem cdiv_le (B m j : ℤ) (hm : 0 < m) (h : B ≤ m * j) : cdiv B m ≤ j := by
  unfold cdiv
  have h2 : -j * m ≤ -B := by linarith [mul_comm m j]
  have h3 : -j ≤ -B / m := (Int.le_ediv_iff_mul_le hm).mpr h2
  linarith

theorem csid_stride_shift (lp : Constr → Option ℤ) (b : CBound) (c : Constr) :
    (compute_size_in_direction lp b c).stride = b.stride ∧
    (compute_size_in_direction lp b c).shift = b.shift := by
  unfold compute_size_in_direction
  split
  · exact ⟨rfl, rfl⟩
  · split
    · cases lp c with
      | none => exact ⟨rfl, rfl⟩
      | some v =>
          simp only
          split
          · exact ⟨rfl, rfl⟩
          · exact ⟨rfl, rfl⟩
    · exact ⟨rfl, rfl⟩

theorem csid_step (lp : Constr → Option ℤ) (b : CBound) (c : Constr) :
    compute_size_in_direction lp b c = b ∨
      (divInvolved c = false ∧ 0 < c.outC ∧ ∃ v, lp c = some v ∧
        (compute_size_in_direction lp b c).size = v + 1 ∧
        (compute_size_in_direction lp b c).lb = some (lbOf c)) := by
  unfold compute_size_in_direction
  split
  · exact Or.inl rfl
  · rename_i hdiv
    split
    · rename_i hpos
      cases hlp : lp c with
      | none => exact Or.inl rfl
      | some v =>
          simp only
          split
          · refine Or.inr ⟨by simpa using hdiv, hpos, v, rfl, ?_, ?_⟩ <;> rfl
          · exact Or.inl rfl
    · exact Or.inl rfl

theorem csid_fold (lp : Constr → Option ℤ) (cs : List Constr) :
    ∀ b0 : CBound,
    ((cs.foldl (compute_size_in_direction lp) b0).stride = b0.stride ∧
     (cs.foldl (compute_size_in_direction lp) b0).shift = b0.shift) ∧
    (((cs.foldl (compute_size_in_direction lp) b0).size = b0.size ∧
      (cs.foldl (compute_size_in_direction lp) b0).lb = b0.lb) ∨
      ∃ c ∈ cs, divInvolved c = false ∧ 0 < c.outC ∧ ∃ v, lp c = some v ∧
        (cs.foldl (compute_size_in_direction lp) b0).size = v + 1 ∧
        (cs.foldl (compute_size_in_direction lp) b0).lb = some (lbOf c)) := by
  induction cs with
  | nil => exact fun b0 => ⟨⟨rfl, rfl⟩, Or.inl ⟨rfl, rfl⟩⟩
  | cons c cs ih =>
      intro b0
      have hss := csid_stride_shift lp b0 c
      have hih := ih (compute_size_in_direction lp b0 c)
      simp only [List.foldl_cons]
      constructor
      · exact ⟨hih.1.1.trans hss.1, hih.1.2.trans hss.2⟩
      · rcases csid_step lp b0 c with hid | ⟨hdiv, hpos, v, hlp, hsz, hlb⟩
        · rw [hid] at hih ⊢
          rcases hih.2 with h | ⟨c', hc', h1, h2, v', h3, h4, h5⟩
          · exact Or.inl h
          · exact Or.inr ⟨c', List.mem_cons_of_mem c hc', h1, h2, v', h3, h4, h5⟩
        · rcases hih.2 with ⟨h1, h2⟩ | ⟨c', hc', h1, h2, v', h3, h4, h5⟩
          · exact Or.inr ⟨c, List.mem_cons_self c cs, hdiv, hpos, v, hlp,
              h1.trans hsz, h2.trans hlb⟩
          · exact Or.inr ⟨c', List.mem_cons_of_mem c hc', h1, h2, v', h3, h4, h5⟩

/-- C3: bound soundness.  Whenever the Bound Solver returns a bound for an
array dimension, then for every parameter/input point of the (stride
rewritten) constraint system whose re-indexed array index satisfies that
system — with the LP oracle's maxima being true upper bounds on
`index - lb` over the system — the re-indexed index minus the recorded
lower bound lies in `[0, size)`. -/
theorem bound_soundness (affHull : BasicMap → List Constr)
    (shiftO : BasicMap → ℤ → AffP → BasicMap)
    (lpMax : BasicMap → Constr → Option ℤ)
    (bm : BasicMap) (b : CBound) (p x : List ℤ) (j : ℤ)
    (hout : compute_array_dim_size affHull shiftO lpMax bm = some b)
    (hsat : satBM (strideBM affHull shiftO bm) p x
      (reIndex (strideSt affHull shiftO bm) p j))
    (hlp : ∀ c ∈ (strideBM affHull shiftO bm).cs, ∀ v,
      lpMax (strideBM affHull shiftO bm) c = some v →
      reIndex (strideSt affHull shiftO bm) p j - evalLB (lbOf c) p x ≤ v) :
    ∃ lbd, b.lb = some lbd ∧
      0 ≤ reIndex (strideSt affHull shiftO bm) p j - evalLB lbd p x ∧
      reIndex (strideSt affHull shiftO bm) p j - evalLB lbd p x < b.size := by
  set T := (strideBM affHull shiftO bm).cs.foldl
      (compute_size_in_direction (lpMax (strideBM affHull shiftO bm)))
      { size := -1, lb := none, stride := (strideSt affHull shiftO bm).stride,
        shift := (strideSt affHull shiftO bm).shift } with hT
  have hout' : (if 0 ≤ T.size then some T else none) = some b := hout
  by_cases hnn : 0 ≤ T.size
  · rw [if_pos hnn] at hout'
    have hb : T = b := Option.some.inj hout'
    have hfold := (csid_fold (lpMax (strideBM affHull shiftO bm))
      (strideBM affHull shiftO bm).cs
      { size := -1, lb := none, stride := (strideSt affHull shiftO bm).stride,
        shift := (strideSt affHull shiftO bm).shift }).2
    rw [← hT, hb] at hfold
    rw [hb] at hnn
    rcases hfold with ⟨hsz, _⟩ | ⟨c, hc, hdiv, hpos, v, hlpv, hsz, hlb⟩
    · rw [hsz] at hnn
      simp at hnn
    refine ⟨lbOf c, hlb, ?_, ?_⟩
    · obtain ⟨e, _, hall⟩ := hsat
      have hce := hall c hc
      have h0 : 0 ≤ constrLHS c p x (reIndex (strideSt affHull shiftO bm) p j) e := by
        unfold satC at hce
        split at hce
        · omega
        · exact hce
      unfold constrLHS at h0
      rw [divInvolved_dotl c hdiv e] at h0
      have hB : -(dotl c.pC p + dotl c.inC x + c.cst)
          ≤ c.outC * reIndex (strideSt affHull shiftO bm) p j := by linarith
      have hle := cdiv_le (-(dotl c.pC p + dotl c.inC x + c.cst)) c.outC
        (reIndex (strideSt affHull shiftO bm) p j) hpos hB
      have hev : evalLB (lbOf c) p x
          = cdiv (-(dotl c.pC p + dotl c.inC x + c.cst)) c.outC := rfl
      rw [hev]
      linarith
    · have hub := hlp c hc v hlpv
      rw [hsz]
      linarith
  · rw [if_neg hnn] at hout'
    exact absurd hout' (by simp)

theorem bound_soundness_witness :
    ∃ lbd, c3b.lb = some lbd ∧
      0 ≤ reIndex (strideSt c3Aff c3Shift c3bm) [] 1 - evalLB lbd [] [] ∧
      reIndex (strideSt c3Aff c3Shift c3bm) [] 1 - evalLB lbd [] [] < c3b.size :=
  bound_soundness c3Aff c3Shift c3Lp c3bm c3b [] [] 1 rfl
    ⟨[], rfl, by decide⟩
    (by
      intro c hc v hv
      have hcs : (strideBM c3Aff c3Shift c3bm).cs
          = [⟨false, [], [], 1, [], 0⟩, ⟨false, [], [], -1, [], 2⟩] := rfl
      rw [hcs] at hc
      fin_cases hc
      · have hv' : (2 : ℤ) = v := by simpa [c3Lp] using hv
        rw [← hv']
        decide
      · simp [c3Lp] at hv)

/-- C8: stride detection on the concrete scenario.  For every `K >= 1`, the
access `A[2*i+1]` for `i` in `[0, K)` (part 1 checks that the embedded
constraint system has exactly these points) makes the Bound Solver record
stride 2 and shift -1, compute tile size `K`, and record the lower bound
`0` corresponding to the minimal `i`; the re-index map sends the accessed
indices `2*i+1` back to exactly `i` in `[0, K)`. -/
theorem stride_detection_scenario (K : ℕ) (hK : 1 ≤ K) :
    (∀ j : ℤ, satBM (c8bm K) [] [] j ↔
      ∃ i : ℤ, 0 ≤ i ∧ i < (K : ℤ) ∧ j = 2 * i + 1) ∧
    compute_array_dim_size c8affHull (c8shiftO K) (c8lpMax K) (c8bm K)
      = some ⟨(K : ℤ), some ⟨1, [], [], 0⟩, 2, some ⟨-1, []⟩⟩ ∧
    (∀ p x : List ℤ, evalLB ⟨1, [], [], 0⟩ p x = 0) ∧
    (∀ i : ℤ, reIndex ⟨2, some ⟨-1, []⟩⟩ [] (2 * i + 1) = i) := by
  refine ⟨?_, ?_, ?_, ?_⟩
  · intro j
    constructor
    · rintro ⟨e, hlen, hall⟩
      obtain ⟨i, rfl⟩ := List.length_eq_one.mp hlen
      have h1 : (0 : ℤ) + 0 + 1 * j + (-2 * i + 0) + -1 = 0 :=
        hall ⟨true, [], [], 1, [-2], -1⟩ (by simp [c8bm])
      have h2 : (0 : ℤ) ≤ 0 + 0 + 0 * j + (1 * i + 0) + 0 :=
        hall ⟨false, [], [], 0, [1], 0⟩ (by simp [c8bm])
      have h3 : (0 : ℤ) ≤ 0 + 0 + 0 * j + (-1 * i + 0) + ((K : ℤ) - 1) :=
        hall ⟨false, [], [], 0, [-1], (K : ℤ) - 1⟩ (by simp [c8bm])
      exact ⟨i, by linarith, by linarith, by linarith⟩
    · rintro ⟨i, h0, hKi, rfl⟩
      refine ⟨[i], rfl, ?_⟩
      intro c hc
      have hc' : c = ⟨true, [], [], 1, [-2], -1⟩ ∨ c = ⟨false, [], [], 0, [1], 0⟩
          ∨ c = ⟨false, [], [], 0, [-1], (K : ℤ) - 1⟩ := by
        simpa [c8bm] using hc
      rcases hc' with rfl | rfl | rfl
      · show (0 : ℤ) + 0 + 1 * (2 * i + 1) + (-2 * i + 0) + -1 = 0
        ring
      · show (0 : ℤ) ≤ 0 + 0 + 0 * (2 * i + 1) + (1 * i + 0) + 0
        linarith
      · show (0 : ℤ) ≤ 0 + 0 + 0 * (2 * i + 1) + (-1 * i + 0) + ((K : ℤ) - 1)
        linarith
  · have h2 : compute_array_dim_size c8affHull (c8shiftO K) (c8lpMax K) (c8bm K)
        = (if (0 : ℤ) ≤ (K : ℤ) - 1 + 1 then
            some { size := (K : ℤ) - 1 + 1, lb := some ⟨1, [], [], 0⟩,
                   stride := 2, shift := some ⟨-1, []⟩ }
          else none) := rfl
    have h3 : (K : ℤ) - 1 + 1 = (K : ℤ) := by ring
    rw [h2, h3, if_pos (by positivity)]
  · intro p x
    rfl
  · intro i
    have h : 2 * i + 1 + evalAffP ⟨-1, []⟩ [] = 2 * i := by
      show 2 * i + 1 + (-1 + dotl [] []) = 2 * i
      show 2 * i + 1 + (-1 + 0) = 2 * i
      ring
    show (2 * i + 1 + evalAffP ⟨-1, []⟩ []) / 2 = i
    rw [h]
    exact Int.mul_ediv_cancel_left i (by decide)

theorem stride_detection_scenario_witness :
    (∀ j : ℤ, satBM (c8bm 3) [] [] j ↔
      ∃ i : ℤ, 0 ≤ i ∧ i < ((3 : ℕ) : ℤ) ∧ j = 2 * i + 1) ∧
    compute_array_dim_size c8affHull (c8shiftO 3) (c8lpMax 3) (c8bm 3)
      = some ⟨((3 : ℕ) : ℤ), some ⟨1, [], [], 0⟩, 2, some ⟨-1, []⟩⟩ ∧
    (∀ p x : List ℤ, evalLB ⟨1, [], [], 0⟩ p x = 0) ∧
    (∀ i : ℤ, reIndex ⟨2, some ⟨-1, []⟩⟩ [] (2 * i + 1) = i) :=
  stride_detection_scenario 3 (by decide)
